import Mathlib

/-!
# Verification of the cli-analytics service

A shallow embedding, in Lean 4, of the core logic of the `cli-analytics`
repository (a FastAPI service that ingests CLI telemetry events and infers
sessions and workflows from them), together with proofs and refutations of
a list of behavioural claims about it.

Conventions of the embedding:

* Timestamps are modelled as integers (milliseconds); `timedelta`
  comparisons become integer comparisons.  The session timeout
  (`settings.session_timeout_minutes`, default 30 minutes) is passed
  explicitly as an integer parameter `T` in the same unit as timestamps.
* The relational store is a `Store` record of lists of rows; SQL queries
  become list filters, `ORDER BY ... LIMIT n` becomes a sort plus `take`,
  autoincrement ids become explicit counters.
* Python `list.sort` (a stable sort) is modelled by a stable insertion
  sort (`sortByTimestamp` and friends); on equal keys the original order
  is preserved, exactly as in CPython.
* SHA-256 (`hashlib.sha256(...).hexdigest()[:16]`) is abstracted as an
  explicit function parameter of type `String → String`; nothing proved
  here depends on properties of the hash.
* Fallible operations return `Option`/`Except`.
* Row structures mirror `app/models.py`.  Columns that none of the
  embedded operations read or write (`event_id`, `tool_version`,
  `error_type`, `ingested_at`, `experiment_id`, `variant` on raw events;
  `last_run_at` on the cursor) are omitted from the records.
-/

/-! ## Character and string helpers

Python string operations used by `app/privacy.py` and `app/schemas.py`,
implemented over `List Char` so that everything reduces in the kernel.
-/

/-- ASCII lower-casing of a character, as `str.lower` acts on the ASCII
inputs this service sees. -/
def lowerChar (c : Char) : Char :=
  if 'A' ≤ c ∧ c ≤ 'Z' then Char.ofNat (c.toNat + 32) else c

/-- ASCII lower-casing of a string (Python `str.lower`). -/
def lowerStr (s : String) : String :=
  ⟨s.data.map lowerChar⟩

/-- Python `s.split(sep)[0]` for a single-character separator: everything
strictly before the first occurrence of `c`. -/
def takeBeforeChar (s : String) (c : Char) : String :=
  ⟨s.data.takeWhile (fun d => d ≠ c)⟩

/-- Python `str.strip()` (whitespace trimmed from both ends). -/
def stripStr (s : String) : String :=
  ⟨(s.data.dropWhile Char.isWhitespace).reverse.dropWhile Char.isWhitespace |>.reverse⟩

/-- Is `pat` a prefix of `l`? (helper for substring search). -/
def listIsPrefixOf : List Char → List Char → Bool
  | [], _ => true
  | _ :: _, [] => false
  | p :: ps, x :: xs => p = x && listIsPrefixOf ps xs

/-- Does `l` contain `pat` as a contiguous substring?  Models
`re.search` of a literal pattern. -/
def listContainsSub (pat : List Char) : List Char → Bool
  | [] => listIsPrefixOf pat []
  | x :: xs => listIsPrefixOf pat (x :: xs) || listContainsSub pat xs

/-- `re.search` of a literal (case-insensitive on both sides handled by
callers lower-casing first). -/
def strContainsSub (s pat : String) : Bool :=
  listContainsSub pat.data s.data

/-- Python `sep.join(parts)`. -/
def strJoin (sep : String) : List String → String
  | [] => ""
  | h :: t => t.foldl (fun acc s => acc ++ sep ++ s) h

/-- `[a-zA-Z]`. -/
def isAsciiAlpha (c : Char) : Bool :=
  ('a' ≤ c && c ≤ 'z') || ('A' ≤ c && c ≤ 'Z')

/-- `[0-9]`. -/
def isAsciiDigit (c : Char) : Bool :=
  '0' ≤ c && c ≤ '9'

/-- `[a-zA-Z0-9_-]`. -/
def isWordDashChar (c : Char) : Bool :=
  isAsciiAlpha c || isAsciiDigit c || c = '_' || c = '-'

/-- Insert `x` into a sorted list, after every element not strictly
greater than it. -/
def insertBy {α : Type} (lt : α → α → Bool) (x : α) : List α → List α
  | [] => [x]
  | y :: ys => if lt x y then x :: y :: ys else y :: insertBy lt x ys

/-- Stable insertion sort: later elements with an equal key come after
earlier ones, exactly like Python's stable `list.sort`/`sorted`. -/
def sortBy {α : Type} (lt : α → α → Bool) (l : List α) : List α :=
  l.foldl (fun acc x => insertBy lt x acc) []

/-- Stable sort by an integer key (models Python `list.sort(key=...)`). -/
def sortByKey {α : Type} (key : α → Int) (l : List α) : List α :=
  sortBy (fun a b => key a < key b) l

/-- Python `sorted` on strings (lexicographic by code point). -/
def sortStrings (l : List String) : List String :=
  sortBy (fun a b : String => decide (a < b)) l

/-! ## Privacy normalizer (`app/privacy.py`) -/

/-- The block-list literals of `BLOCKED_FLAG_PATTERNS` (each applied with
`re.search` and `(?i)`); `api[-_]?key` is expanded into its three literal
alternatives. -/
def BLOCKED_FLAG_LITERALS : List String :=
  ["token", "password", "secret", "key", "auth", "credential",
   "apikey", "api-key", "api_key"]

/-- Does the (already extracted) flag name match one of the blocked
patterns, case-insensitively?  Models the `re.search` loop over
`BLOCKED_FLAG_PATTERNS`. -/
def isBlockedFlagName (name : String) : Bool :=
  BLOCKED_FLAG_LITERALS.any (fun pat => strContainsSub (lowerStr name) pat)

/-- The allow-list pattern `^--?[a-zA-Z][a-zA-Z0-9_-]*$` of
`ALLOWED_FLAG_PATTERNS` (one or two leading dashes, then a letter, then
word characters), as a full match. -/
def matchesAllowedFlagPattern (name : String) : Bool :=
  match name.data with
  | '-' :: '-' :: c :: rest => isAsciiAlpha c && rest.all isWordDashChar
  | '-' :: c :: rest => isAsciiAlpha c && rest.all isWordDashChar
  | _ => false

/-- `privacy.sanitize_flag_name`: strip anything after the first `=` or
`:`, trim, drop empty names, drop block-listed names, keep only names
matching the allow-list pattern. -/
def sanitize_flag_name (flag : String) : Option String :=
  let flagName := stripStr (takeBeforeChar (takeBeforeChar flag '=') ':')
  if flagName = "" then none
  else if isBlockedFlagName flagName then none
  else if matchesAllowedFlagPattern flagName then some flagName
  else none

/-- `privacy.sanitize_flags`: keep the sanitized names (the Python
`if clean_flag:` truthiness test coincides with `isSome` because
`sanitize_flag_name` never returns an empty string). -/
def sanitize_flags (flags : List String) : List String :=
  flags.filterMap sanitize_flag_name

/-- `SAFE_COMMAND_PATTERN = ^[a-zA-Z][a-zA-Z0-9_-]*$` as a full match. -/
def matchesSafeCommandPattern (s : String) : Bool :=
  match s.data with
  | c :: rest => isAsciiAlpha c && rest.all isWordDashChar
  | [] => false

/-- `privacy.sanitize_command_path`: trim each element, lowercase it when
it matches the safe pattern, otherwise replace it by the sentinel
`[REDACTED]`; length and positions are preserved. -/
def sanitize_command_path (path : List String) : List String :=
  path.map (fun element =>
    let e := stripStr element
    if matchesSafeCommandPattern e then lowerStr e else "[REDACTED]")

/-- `privacy.sanitize_tool_name`: keep only `[a-zA-Z0-9_-]`, truncate to
128 characters, default to `"unknown"` when empty. -/
def sanitize_tool_name (toolName : String) : String :=
  let clean : List Char := (toolName.data.filter isWordDashChar).take 128
  if clean.isEmpty then "unknown" else ⟨clean⟩

/-! ## Data model (`app/models.py`) -/

/-- A row of `raw_events`. -/
structure RawEvent where
  id : Nat
  timestamp : Int
  toolName : String
  commandPath : List String
  flagsPresent : List String
  exitCode : Option Int
  durationMs : Option Int
  actorIdHash : String
  machineIdHash : String
  sessionHint : Option String
  ciDetected : Bool
  sessionId : Option Nat
  workflowRunId : Option Nat
  deriving Repr, DecidableEq

/-- A row of `sessions`.  Note: exactly the columns of
`models.Session` — there is no tool-name column. -/
structure SessionRow where
  id : Nat
  actorIdHash : String
  machineIdHash : String
  sessionHint : Option String
  ciDetected : Bool
  startedAt : Int
  endedAt : Option Int
  eventCount : Nat
  deriving Repr, DecidableEq

/-- A row of `workflow_runs`.  Note: exactly the columns of
`models.WorkflowRun` — there is no tool-name column. -/
structure WorkflowRow where
  id : Nat
  sessionId : Nat
  workflowName : String
  outcome : String
  startedAt : Int
  endedAt : Int
  durationMs : Option Int
  stepCount : Nat
  commandFingerprint : String
  deriving Repr, DecidableEq

/-- A row of `workflow_steps` (the surrogate `id` column is omitted;
nothing reads it). -/
structure StepRow where
  workflowRunId : Nat
  eventId : Nat
  stepOrder : Nat
  commandFingerprint : String
  deriving Repr, DecidableEq

/-- The relational store: table contents plus the autoincrement counters
and the single-row inference cursor. -/
structure Store where
  events : List RawEvent
  sessions : List SessionRow
  workflows : List WorkflowRow
  steps : List StepRow
  cursorLastEventId : Nat
  nextEventId : Nat
  nextSessionId : Nat
  nextWorkflowId : Nat
  deriving Repr, DecidableEq

/-- The empty database (after migrations, before any request). -/
def emptyStore : Store :=
  { events := [], sessions := [], workflows := [], steps := [],
    cursorLastEventId := 0, nextEventId := 1, nextSessionId := 1,
    nextWorkflowId := 1 }

/-! ## Workflow vocabulary and outcome (`app/infer.py`, lines 22-84) -/

/-- `ENTRY_COMMANDS`. -/
def ENTRY_COMMANDS : List String :=
  ["init", "login", "setup", "config", "create", "new", "start", "begin",
   "configure"]

/-- `TERMINAL_COMMANDS`. -/
def TERMINAL_COMMANDS : List String :=
  ["deploy", "apply", "release", "publish", "scan", "test", "build",
   "push", "run", "execute"]

/-- `infer.get_command_fingerprint`: the path joined by `/`, plus the
sorted flag names in brackets when any flags exist. -/
def get_command_fingerprint (commandPath : List String) (flags : List String) : String :=
  let pathStr := strJoin "/" commandPath
  if flags.isEmpty then pathStr
  else pathStr ++ "[" ++ strJoin "," (sortStrings flags) ++ "]"

/-- `infer.is_entry_command`: empty paths are entry commands of nothing;
otherwise membership of the lowercased last token. -/
def is_entry_command (commandPath : List String) : Bool :=
  match commandPath.getLast? with
  | none => false
  | some lastCmd => ENTRY_COMMANDS.contains (lowerStr lastCmd)

/-- `infer.is_terminal_command`. -/
def is_terminal_command (commandPath : List String) : Bool :=
  match commandPath.getLast? with
  | none => false
  | some lastCmd => TERMINAL_COMMANDS.contains (lowerStr lastCmd)

/-- `infer.determine_outcome`. -/
def determine_outcome (exitCode : Option Int) (isTerminal : Bool) (isTimeout : Bool) : String :=
  if isTimeout then "ABANDONED"
  else if !isTerminal then "ABANDONED"
  else match exitCode with
    | none => "ABANDONED"
    | some c => if c = 0 then "SUCCESS" else "FAILED"

/-- The lowercased last token of a command path (callers establish the
path is non-empty; the default is never used then). -/
def lastTokenLower (commandPath : List String) : String :=
  lowerStr (commandPath.getLastD "")

/-- Occurrence count of a string in a list (`collections.Counter`). -/
def countOcc (l : List String) (x : String) : Nat :=
  l.count x

/-- Distinct values in first-occurrence order (the key order of a
`Counter` built by repeated insertion). -/
def firstOccurrences (l : List String) : List String :=
  l.foldl (fun acc x => if acc.contains x then acc else acc ++ [x]) []

/-- `Counter(l).most_common(1)[0][0]`: a value of maximal count; ties are
broken by first occurrence (CPython's `most_common` sorts stably over
insertion-ordered keys). -/
def mostCommon (l : List String) : Option String :=
  (firstOccurrences l).foldl
    (fun best k =>
      match best with
      | none => some k
      | some b => if countOcc l b < countOcc l k then some k else best)
    none

/-- `infer.infer_workflow_name`: the dominant terminal token's
`<token>_workflow`, else `<tool_name>_workflow` of the first event, else
`unknown_workflow`. -/
def infer_workflow_name (events : List RawEvent) : String :=
  let terminalTokens := events.filterMap (fun e =>
    if is_terminal_command e.commandPath then some (lastTokenLower e.commandPath) else none)
  match mostCommon terminalTokens with
  | some t => t ++ "_workflow"
  | none =>
    match events.head? with
    | some e => e.toolName ++ "_workflow"
    | none => "unknown_workflow"

/-! ## Store helpers (ORM queries and in-place row mutation) -/

/-- Look up a session row by id. -/
def findSessionRow (st : Store) (sid : Nat) : Option SessionRow :=
  st.sessions.find? (fun s => s.id = sid)

/-- Mutate the session row with the given id in place. -/
def updSession (st : Store) (sid : Nat) (f : SessionRow → SessionRow) : Store :=
  { st with sessions := st.sessions.map (fun s => if s.id = sid then f s else s) }

/-- Mutate the raw-event row with the given id in place. -/
def updEvent (st : Store) (eid : Nat) (f : RawEvent → RawEvent) : Store :=
  { st with events := st.events.map (fun e => if e.id = eid then f e else e) }

/-- `db.query(RawEvent).filter(RawEvent.session_id == sid).order_by(timestamp.desc()).first()`,
reduced to the only use made of it: the maximum attached timestamp, with a
fallback when the session has no attached events
(`infer.sessionize_events`, lines 131-139). -/
def lastEventTime (st : Store) (sid : Nat) (fallback : Int) : Int :=
  match (st.events.filterMap (fun e =>
      if e.sessionId = some sid then some e.timestamp else none)).max? with
  | some t => t
  | none => fallback

/-- `db.query(Session).filter(actor, machine, ended_at IS NULL).order_by(started_at.desc()).first()`
(`infer.sessionize_events`, lines 117-121): the first row of maximal
`started_at` among the open sessions of this (actor, machine). -/
def findOpenSession (st : Store) (actorHash machineHash : String) : Option SessionRow :=
  (st.sessions.filter (fun s =>
      s.actorIdHash = actorHash && s.machineIdHash = machineHash
        && s.endedAt = none)).foldl
    (fun best s =>
      match best with
      | none => some s
      | some b => if b.startedAt < s.startedAt then some s else best)
    none

/-! ## Sessionization (`infer.sessionize_events`) -/

/-- The in-memory state of the per-partition loop of
`sessionize_events`: the store, the current session (`current_session`),
its buffered events (`current_session_events`), and the accumulated
`session_events` dict (an insertion-ordered association list). -/
structure SessState where
  st : Store
  cur : Option Nat
  curEvs : List RawEvent
  acc : List (Nat × List RawEvent)
  deriving Repr

/-- `session_events[sid].extend(evs)`, creating the entry first when
missing (`infer.sessionize_events`, lines 172-175 and 203-207). -/
def addAcc (acc : List (Nat × List RawEvent)) (sid : Nat) (evs : List RawEvent) :
    List (Nat × List RawEvent) :=
  if acc.any (fun p => p.1 = sid) then
    acc.map (fun p => if p.1 = sid then (p.1, p.2 ++ evs) else p)
  else acc ++ [(sid, evs)]

/-- Create a new session row from an event and make it current
(`infer.sessionize_events`, lines 182-196), then attach the event
(lines 198-200).  Shared tail of every branch of the loop body. -/
def sessAttach (st : Store) (sid : Nat) (curEvs : List RawEvent)
    (acc : List (Nat × List RawEvent)) (e : RawEvent) : SessState :=
  let e' := { e with sessionId := some sid }
  { st := updEvent st e.id (fun r => { r with sessionId := some sid }),
    cur := some sid,
    curEvs := curEvs ++ [e'],
    acc := acc }

/-- The `should_start_new_session` tail: insert a fresh session row built
from the event, then attach the event to it. -/
def sessStartNew (st : Store) (actorHash machineHash : String)
    (acc : List (Nat × List RawEvent)) (e : RawEvent) : SessState :=
  let sid := st.nextSessionId
  let row : SessionRow :=
    { id := sid, actorIdHash := actorHash, machineIdHash := machineHash,
      sessionHint := e.sessionHint, ciDetected := e.ciDetected,
      startedAt := e.timestamp, endedAt := none, eventCount := 0 }
  let st1 : Store :=
    { st with sessions := st.sessions ++ [row], nextSessionId := sid + 1 }
  sessAttach st1 sid [] acc e

/-- One iteration of the per-event loop of `sessionize_events`
(lines 123-200), for partition key (`actorHash`, `machineHash`) and the
pre-loop open-session lookup result `exS`. -/
def sessStep (T : Int) (actorHash machineHash : String) (exS : Option Nat)
    (σ : SessState) (e : RawEvent) : SessState :=
  match σ.cur with
  | none =>
    match exS with
    | none =>
      -- no current or existing session: start new (lines 126-128)
      sessStartNew σ.st actorHash machineHash σ.acc e
    | some exId =>
      match findSessionRow σ.st exId with
      | none =>
        -- unreachable: `exS` always names an existing row; treated as absent
        sessStartNew σ.st actorHash machineHash σ.acc e
      | some esess =>
        -- lines 129-154: try to continue the stored open session
        let lastT := lastEventTime σ.st exId esess.startedAt
        let timeDiff := e.timestamp - lastT
        if esess.sessionHint ≠ e.sessionHint || esess.ciDetected ≠ e.ciDetected
            || T < timeDiff then
          -- close the existing session and start a new one (lines 144-149)
          let st1 := updSession σ.st exId (fun s => { s with endedAt := some lastT })
          sessStartNew st1 actorHash machineHash σ.acc e
        else
          -- continue the existing session (lines 151-154)
          sessAttach σ.st exId [] σ.acc e
  | some sid =>
    -- lines 155-180: we have a current session
    let timeDiff :=
      match σ.curEvs.getLast? with
      | some lastE => e.timestamp - lastE.timestamp
      | none => 0
    match findSessionRow σ.st sid with
    | none =>
      -- unreachable: the current session always exists; treated as compatible
      sessAttach σ.st sid σ.curEvs σ.acc e
    | some csess =>
      if csess.sessionHint ≠ e.sessionHint || csess.ciDetected ≠ e.ciDetected
          || T < timeDiff then
        -- close the current session (lines 167-180), then start new
        let st1 :=
          match σ.curEvs.getLast? with
          | some lastE =>
            updSession σ.st sid (fun s =>
              { s with endedAt := some lastE.timestamp,
                       eventCount := s.eventCount + σ.curEvs.length })
          | none => σ.st
        let acc1 := addAcc σ.acc sid σ.curEvs
        sessStartNew st1 actorHash machineHash acc1 e
      else
        sessAttach σ.st sid σ.curEvs σ.acc e

/-- The per-partition event loop (lines 123-200), structurally recursive
over the (timestamp-sorted) partition events. -/
def sessRun (T : Int) (actorHash machineHash : String) (exS : Option Nat)
    (σ : SessState) : List RawEvent → SessState
  | [] => σ
  | e :: rest => sessRun T actorHash machineHash exS (sessStep T actorHash machineHash exS σ e) rest

/-- Finalize the current session after the loop (lines 202-207): bump its
event count and flush the buffered events into `session_events`. -/
def sessFinalize (σ : SessState) : Store × List (Nat × List RawEvent) :=
  match σ.cur with
  | some sid =>
    if σ.curEvs.isEmpty then (σ.st, σ.acc)
    else
      (updSession σ.st sid (fun s => { s with eventCount := s.eventCount + σ.curEvs.length }),
       addAcc σ.acc sid σ.curEvs)
  | none => (σ.st, σ.acc)

/-- The whole per-partition body of `sessionize_events` (lines 109-207):
look up the most recent open session for the partition, then walk the
partition's events (already sorted by timestamp by the caller). -/
def walkGroup (T : Int) (st : Store) (acc : List (Nat × List RawEvent))
    (actorHash machineHash : String) (g : List RawEvent) :
    Store × List (Nat × List RawEvent) :=
  let exS := (findOpenSession st actorHash machineHash).map (fun s => s.id)
  sessFinalize (sessRun T actorHash machineHash exS ⟨st, none, [], acc⟩ g)

/-- The partition keys in first-occurrence order (Python dict built by
insertion, lines 99-104). -/
def groupKeys (events : List RawEvent) : List (String × String) :=
  events.foldl
    (fun ks e =>
      let k := (e.actorIdHash, e.machineIdHash)
      if ks.contains k then ks else ks ++ [k])
    []

/-- `infer.sessionize_events`: partition by (actor hash, machine hash),
sort each partition by timestamp (stably), and run the per-partition
walk, threading the store and the shared `session_events` dict. -/
def sessionize_events (T : Int) (st : Store) (events : List RawEvent) :
    Store × List (Nat × List RawEvent) :=
  (groupKeys events).foldl
    (fun p k =>
      walkGroup T p.1 p.2 k.1 k.2
        (sortByKey (fun e => e.timestamp)
          (events.filter (fun e => e.actorIdHash = k.1 && e.machineIdHash = k.2))))
    (st, [])

/-! ## Workflow inference (`infer.create_workflow`, `infer.infer_workflows`) -/

/-- The workflow duration of `create_workflow` (lines 294-300):
end-minus-start in milliseconds for two or more events; for a single
event, Python's `elif events[0].duration_ms:` keeps the event's duration
only when it is present AND non-zero (`0` is falsy). -/
def workflow_duration (events : List RawEvent) : Option Int :=
  if 1 < events.length then
    match events.head?, events.getLast? with
    | some h, some l => some (l.timestamp - h.timestamp)
    | _, _ => none
  else
    match events.head? with
    | some h =>
      match h.durationMs with
      | some d => if d = 0 then none else some d
      | none => none
    | none => none

/-- The step rows built by the `enumerate(events)` loop of
`create_workflow` (lines 327-334). -/
def mkStepRows (wfId : Nat) (events : List RawEvent) : List StepRow :=
  events.enum.map (fun p =>
    { workflowRunId := wfId, eventId := p.2.id, stepOrder := p.1,
      commandFingerprint := get_command_fingerprint p.2.commandPath p.2.flagsPresent })

/-- The workflow row built by `create_workflow` for a non-empty event
list, given the id the database will assign. -/
def mkWorkflowRow (wfId : Nat) (sessionId : Nat) (h : RawEvent) (t : List RawEvent)
    (isTimeout : Bool) : WorkflowRow :=
  let events := h :: t
  let lastE := t.getLastD h
  { id := wfId,
    sessionId := sessionId,
    workflowName := infer_workflow_name events,
    outcome := determine_outcome lastE.exitCode (is_terminal_command lastE.commandPath) isTimeout,
    startedAt := h.timestamp,
    endedAt := lastE.timestamp,
    durationMs := workflow_duration events,
    stepCount := events.length,
    commandFingerprint :=
      strJoin " -> " (events.map (fun e => get_command_fingerprint e.commandPath e.flagsPresent)) }

/-- Set `workflow_run_id` on the listed event ids. -/
def setWorkflowIds (events : List RawEvent) (ids : List Nat) (wfId : Nat) : List RawEvent :=
  ids.foldl
    (fun acc eid =>
      acc.map (fun r => if r.id = eid then { r with workflowRunId := some wfId } else r))
    events

/-- `infer.create_workflow`: `None` on an empty list, otherwise insert the
workflow row, its step rows, and stamp `workflow_run_id` onto the events. -/
def create_workflow (st : Store) (sessionId : Nat) (events : List RawEvent)
    (isTimeout : Bool) : Store × Option WorkflowRow :=
  match events with
  | [] => (st, none)
  | h :: t =>
    let wfId := st.nextWorkflowId
    let row := mkWorkflowRow wfId sessionId h t isTimeout
    let st1 : Store :=
      { st with
        workflows := st.workflows ++ [row],
        steps := st.steps ++ mkStepRows wfId (h :: t),
        events := setWorkflowIds st.events ((h :: t).map (fun e => e.id)) wfId,
        nextWorkflowId := wfId + 1 }
    (st1, some row)

/-- The boundary test of the per-event loop of `infer_workflows`
(lines 236-253): `should_end_current` for a non-empty buffer whose last
event is `prev` and whose incoming event is `e`. -/
def wfBoundary (T : Int) (prev e : RawEvent) : Bool :=
  is_entry_command e.commandPath
    || decide (T < e.timestamp - prev.timestamp)
    || (is_terminal_command prev.commandPath && prev.exitCode.isSome)

/-- The per-event walk of `infer_workflows` (lines 227-274) over one
session's (timestamp-sorted) events, carrying the
`current_workflow_events` buffer; mid-walk closes pass
`is_timeout=False`, the trailing close passes
`is_timeout = not is_terminal(last)`. -/
def wfWalk (T : Int) (sessionId : Nat) (st : Store) (buf : List RawEvent) :
    List RawEvent → Store
  | [] =>
    match buf.getLast? with
    | none => st
    | some lastE =>
      (create_workflow st sessionId buf (!is_terminal_command lastE.commandPath)).1
  | e :: rest =>
    match buf.getLast? with
    | none => wfWalk T sessionId st [e] rest
    | some prev =>
      if wfBoundary T prev e then
        wfWalk T sessionId (create_workflow st sessionId buf false).1 [e] rest
      else
        wfWalk T sessionId st (buf ++ [e]) rest

/-- The per-session body of `infer_workflows` (lines 221-274): skip empty
event lists, sort by timestamp, walk. -/
def infer_session_workflows (T : Int) (st : Store) (sessionId : Nat)
    (events : List RawEvent) : Store :=
  if events.isEmpty then st
  else wfWalk T sessionId st [] (sortByKey (fun e => e.timestamp) events)

/-- `infer.infer_workflows`: fold the per-session walk over the
`session_events` dict produced by sessionization. -/
def infer_workflows (T : Int) (st : Store) (sessAcc : List (Nat × List RawEvent)) : Store :=
  sessAcc.foldl (fun s p => infer_session_workflows T s p.1 p.2) st

/-! ## The inference endpoint (`infer.run_inference`) and ingestion -/

/-- `run_inference` (lines 340-394), on the store: fetch up to 10000
unprocessed events above the cursor ordered by id, sessionize them, infer
workflows, and advance the cursor to the batch's maximal id.  (The HTTP
response counters are not modelled; the cursor row is part of `Store`,
matching the get-or-create with `last_event_id=0`.) -/
def run_inference (T : Int) (st : Store) : Store :=
  let batch :=
    (sortByKey (fun e => (e.id : Int))
      (st.events.filter (fun e =>
        decide (st.cursorLastEventId < e.id) && e.sessionId = none))).take 10000
  if batch.isEmpty then st
  else
    let p := sessionize_events T st batch
    let st2 := infer_workflows T p.1 p.2
    { st2 with cursorLastEventId := (batch.map (fun e => e.id)).foldl Nat.max 0 }

/-- The sanitized payload of one event as ingestion persists it
(`ingest.process_event` after privacy normalization and identifier
hashing; back-pointers start as NULL, the id is DB-assigned). -/
structure NewEventData where
  timestamp : Int
  toolName : String
  commandPath : List String
  flagsPresent : List String
  exitCode : Option Int
  durationMs : Option Int
  actorIdHash : String
  machineIdHash : String
  sessionHint : Option String
  ciDetected : Bool
  deriving Repr, DecidableEq

/-- Insert one raw event with a fresh autoincrement id and NULL
back-pointers (`ingest.process_event`, lines 62-80). -/
def appendEvent (st : Store) (d : NewEventData) : Store :=
  let e : RawEvent :=
    { id := st.nextEventId, timestamp := d.timestamp, toolName := d.toolName,
      commandPath := d.commandPath, flagsPresent := d.flagsPresent,
      exitCode := d.exitCode, durationMs := d.durationMs,
      actorIdHash := d.actorIdHash, machineIdHash := d.machineIdHash,
      sessionHint := d.sessionHint, ciDetected := d.ciDetected,
      sessionId := none, workflowRunId := none }
  { st with events := st.events ++ [e], nextEventId := st.nextEventId + 1 }

/-- A committed ingest batch (`ingest.ingest_events`): all validated
events persisted in one transaction. -/
def ingestEvents (st : Store) (ds : List NewEventData) : Store :=
  ds.foldl appendEvent st

/-- The reachable database states: the empty store, extended by any
interleaving of committed ingest batches and inference runs (the timeout
configuration may differ between runs). -/
inductive ReachableStore : Store → Prop
  | init : ReachableStore emptyStore
  | ingest (st : Store) (ds : List NewEventData) :
      ReachableStore st → ReachableStore (ingestEvents st ds)
  | infer (T : Int) (st : Store) :
      ReachableStore st → ReachableStore (run_inference T st)

/-! ## Report aggregator (`app/reports.py`) -/

/-- The three global counts of `get_summary_report` (lines 46-49):
`count(RawEvent.id)`, `count(Session.id)`, `count(WorkflowRun.id)`.
Note that, like every query of `reports.py`, they carry no tool-name
predicate. -/
def summary_report_totals (st : Store) : Nat × Nat × Nat :=
  (st.events.length, st.sessions.length, st.workflows.length)

/-! ## Recommender (`app/recommendations.py`) -/

/-- The sequence-analysis query of `get_recommendations` (lines 48-54):
`(workflow_run_id, command_path, exit_code)` of every event with a
non-null `workflow_run_id`, ordered by `(workflow_run_id, timestamp)`;
no tool-name predicate. -/
def recommendation_event_rows (st : Store) : List (Option Nat × List String × Option Int) :=
  (sortBy
    (fun a b =>
      (a.workflowRunId.getD 0 < b.workflowRunId.getD 0)
        || (a.workflowRunId = b.workflowRunId && a.timestamp < b.timestamp))
    (st.events.filter (fun e => e.workflowRunId ≠ none))).map
    (fun e => (e.workflowRunId, e.commandPath, e.exitCode))

/-- Python truthiness of the `cmd`/`prev_cmd` optional strings
(`None` and `""` are falsy). -/
def truthyStr : Option String → Bool
  | none => false
  | some s => s ≠ ""

/-- Record one observed `(prev, curr)` transition
(lines 64-70): create the counter pair on first sight, then bump
`success` when the current event's `exit_code == 0`, else `fail`. -/
def recordPair (acc : List ((String × String) × (Nat × Nat)))
    (k : String × String) (isSuccess : Bool) : List ((String × String) × (Nat × Nat)) :=
  let acc1 := if acc.any (fun p => p.1 = k) then acc else acc ++ [(k, (0, 0))]
  acc1.map (fun p =>
    if p.1 = k then
      (p.1, if isSuccess then (p.2.1 + 1, p.2.2) else (p.2.1, p.2.2 + 1))
    else p)

/-- The pair-mining loop of `get_recommendations` (lines 56-71): walk the
rows, resetting the previous command at each workflow boundary; an event
with an empty command path yields `cmd = None` and records nothing. -/
def pairMineLoop (curWf : Option Nat) (prevCmd : Option String)
    (acc : List ((String × String) × (Nat × Nat))) :
    List (Option Nat × List String × Option Int) →
      List ((String × String) × (Nat × Nat))
  | [] => acc
  | (wfId, cmdPath, exitCode) :: rest =>
    let cmd : Option String :=
      match cmdPath.getLast? with
      | some c => some (lowerStr c)
      | none => none
    let reset := wfId ≠ curWf
    let prev1 : Option String := if reset then none else prevCmd
    let acc1 :=
      if truthyStr cmd && truthyStr prev1 then
        recordPair acc (prev1.getD "", cmd.getD "") (exitCode = some 0)
      else acc
    pairMineLoop wfId cmd acc1 rest

/-- `command_pairs` as built by `get_recommendations` from a row list. -/
def build_command_pairs (rows : List (Option Nat × List String × Option Int)) :
    List ((String × String) × (Nat × Nat)) :=
  pairMineLoop none none [] rows

/-! ## Ingestion validation (`app/schemas.py`) and the ingest endpoint -/

/-- The raw JSON body of one event, before Pydantic validation: every
field optional at this stage. -/
structure EventJson where
  timestamp : Option Int
  toolName : Option String
  toolVersion : Option String
  commandPath : Option (List String)
  flagsPresent : Option (List String)
  exitCode : Option Int
  durationMs : Option Int
  errorType : Option String
  actorId : Option String
  machineId : Option String
  sessionHint : Option String
  ciDetected : Option Bool
  deriving Repr, DecidableEq

/-- A validated `schemas.EventInput`. -/
structure EventInput where
  timestamp : Int
  toolName : String
  toolVersion : Option String
  commandPath : List String
  flagsPresent : List String
  exitCode : Option Int
  durationMs : Option Int
  errorType : Option String
  actorId : String
  machineId : String
  sessionHint : Option String
  ciDetected : Bool
  deriving Repr, DecidableEq

/-- The `validate_command_path` field validator (lines 28-32):
`[str(cmd).strip() for cmd in v if cmd]` — falsy (empty) elements are
dropped, the rest are trimmed. -/
def validate_command_path_field (v : List String) : List String :=
  v.filterMap (fun cmd => if cmd = "" then none else some (stripStr cmd))

/-- The `validate_flags` field validator (lines 34-44): keep the part of
each flag before the first `=`/`:`, trimmed, dropping empties. -/
def validate_flags_field (v : List String) : List String :=
  v.filterMap (fun flag =>
    let flagName := stripStr (takeBeforeChar (takeBeforeChar flag '=') ':')
    if flagName = "" then none else some flagName)

/-- Pydantic validation of one event against `schemas.EventInput`:
required fields present, length and range constraints
(`min_length`/`max_length`/`ge=0`), then the two field validators. -/
def validate_event_input (j : EventJson) : Option EventInput :=
  match j.timestamp, j.toolName, j.commandPath, j.actorId, j.machineId with
  | some ts, some toolName, some commandPath, some actorId, some machineId =>
    if 1 ≤ toolName.length ∧ toolName.length ≤ 128
        ∧ (∀ v ∈ j.toolVersion.toList, v.length ≤ 64)
        ∧ 1 ≤ commandPath.length
        ∧ (∀ d ∈ j.durationMs.toList, 0 ≤ d)
        ∧ (∀ s ∈ j.errorType.toList, s.length ≤ 256)
        ∧ 1 ≤ actorId.length ∧ actorId.length ≤ 256
        ∧ 1 ≤ machineId.length ∧ machineId.length ≤ 256
        ∧ (∀ s ∈ j.sessionHint.toList, s.length ≤ 128) then
      some
        { timestamp := ts, toolName := toolName, toolVersion := j.toolVersion,
          commandPath := validate_command_path_field commandPath,
          flagsPresent := validate_flags_field (j.flagsPresent.getD []),
          exitCode := j.exitCode, durationMs := j.durationMs,
          errorType := j.errorType, actorId := actorId, machineId := machineId,
          sessionHint := j.sessionHint, ciDetected := j.ciDetected.getD false }
    else none
  | _, _, _, _, _ => none

/-- FastAPI body validation of `{events: [...]}` against
`schemas.BatchEventInput` (`min_length=1`, `max_length=1000`): the whole
body parses only if every event validates. -/
def parse_ingest_batch (events : List EventJson) : Option (List EventInput) :=
  if 1 ≤ events.length ∧ events.length ≤ 1000 then
    events.mapM validate_event_input
  else none

/-- `ingest.process_event` on a validated event (lines 37-87): sanitize,
hash identifiers (`hashId` abstracts the salted SHA-256), and insert the
raw event.  In this pure embedding the sanitizers are total and database
errors are out of scope, so the Python `except` branch is unreachable. -/
def process_event (hashId : String → String) (st : Store) (e : EventInput) : Store :=
  appendEvent st
    { timestamp := e.timestamp,
      toolName := sanitize_tool_name e.toolName,
      commandPath := sanitize_command_path e.commandPath,
      flagsPresent := sanitize_flags e.flagsPresent,
      exitCode := e.exitCode,
      durationMs := e.durationMs,
      actorIdHash := hashId e.actorId,
      machineIdHash := hashId e.machineId,
      sessionHint := e.sessionHint,
      ciDetected := e.ciDetected }

/-- The accepted/rejected counting loop of `ingest.ingest_events`
(lines 112-119); as `process_event` cannot fail here, every event is
accepted. -/
def ingest_loop (hashId : String → String) (st : Store) :
    List EventInput → Store × Nat × Nat
  | [] => (st, 0, 0)
  | e :: rest =>
    let p := ingest_loop hashId (process_event hashId st e) rest
    (p.1, p.2.1 + 1, p.2.2)

/-- The `POST /ingest` request with a batch body: FastAPI validates the
body against `Union[EventInput, BatchEventInput]` BEFORE the handler
runs; a body that fails validation is rejected whole with HTTP 422 and
`ingest_events` is never entered.  On success, returns the new store and
the `(accepted, rejected)` counters. -/
def ingest_batch_request (hashId : String → String) (st : Store)
    (events : List EventJson) : Except Nat (Store × Nat × Nat) :=
  match parse_ingest_batch events with
  | none => Except.error 422
  | some evs => Except.ok (ingest_loop hashId st evs)

/-! ## Experiment service (`app/experiments.py`) -/

/-- A row of `experiments`.  `tool_name` is the column added by migration
004 and used by `experiments.py`; the ORM model in `models.py` does not
declare it (see the C9 analysis). -/
structure ExperimentRow where
  id : Nat
  name : String
  toolName : String
  variants : List String
  isActive : Bool
  deriving Repr, DecidableEq

/-- A row of `variant_assignments`. -/
structure AssignmentRow where
  experimentId : Nat
  actorIdHash : String
  variant : String
  deriving Repr, DecidableEq

/-- The value of one hexadecimal digit. -/
def hexDigitVal? (c : Char) : Option Nat :=
  if '0' ≤ c ∧ c ≤ '9' then some (c.toNat - '0'.toNat)
  else if 'a' ≤ c ∧ c ≤ 'f' then some (c.toNat - 'a'.toNat + 10)
  else if 'A' ≤ c ∧ c ≤ 'F' then some (c.toNat - 'A'.toNat + 10)
  else none

/-- Python `int(s, 16)`; `none` models the `ValueError` on an empty or
non-hexadecimal string. -/
def hexToNat? (s : String) : Option Nat :=
  if s = "" then none
  else s.data.foldl
    (fun acc c =>
      match acc, hexDigitVal? c with
      | some n, some d => some (n * 16 + d)
      | _, _ => none)
    (some 0)

/-- The assignment lookup of `get_variant` (lines 114-117). -/
def find_assignment (assigns : List AssignmentRow) (expId : Nat) (actorHash : String) :
    Option AssignmentRow :=
  assigns.find? (fun a => a.experimentId = expId && a.actorIdHash = actorHash)

/-- The experiment resolution of `get_variant` (lines 104-110), written
against the migrated schema (name, tool, active). -/
def find_active_experiment (exps : List ExperimentRow) (name toolName : String) :
    Option ExperimentRow :=
  exps.find? (fun e => e.name = name && e.toolName = toolName && e.isActive)

/-- The assignment core of `experiments.get_variant` (lines 112-143) for
a resolved experiment: hash the actor id (`sha16` abstracts
`hashlib.sha256(actor_id.encode()).hexdigest()[:16]`), return a stored
assignment if one exists, otherwise deterministically pick
`variants[int(actor_hash, 16) % len(variants)]` and insert it.  `none`
models the uncaught exceptions (non-hex hash, empty variant list) that
surface as HTTP 500. -/
def get_variant (sha16 : String → String) (exp : ExperimentRow) (actorId : String)
    (assigns : List AssignmentRow) : Option (String × List AssignmentRow) :=
  let actorHash := sha16 actorId
  match find_assignment assigns exp.id actorHash with
  | some a => some (a.variant, assigns)
  | none =>
    match hexToNat? actorHash with
    | none => none
    | some hashInt =>
      match exp.variants with
      | [] => none
      | v0 :: _ =>
        let variant := exp.variants.getD (hashInt % exp.variants.length) v0
        some (variant,
          assigns ++ [{ experimentId := exp.id, actorIdHash := actorHash, variant := variant }])

/-- Any sequence of further `get_variant` calls (arbitrary experiments
and actors, in any order), applied to the assignment table; calls that
error leave the table unchanged. -/
def run_variant_calls (sha16 : String → String) (calls : List (ExperimentRow × String))
    (assigns : List AssignmentRow) : List AssignmentRow :=
  calls.foldl
    (fun st c =>
      match get_variant sha16 c.1 c.2 st with
      | some p => p.2
      | none => st)
    assigns

/-! ## Claim-side definitions and concrete instances -/

/-- The flag-name pattern as the specification states it:
`-?-?[A-Za-z][A-Za-z0-9_-]*` — zero, one or two leading dashes (so a
bare name is accepted).  This follows the spec's words; the code's
pattern is `matchesAllowedFlagPattern`. -/
def specAllowedFlagPattern (name : String) : Bool :=
  match name.data with
  | '-' :: '-' :: c :: rest => isAsciiAlpha c && rest.all isWordDashChar
  | '-' :: c :: rest => isAsciiAlpha c && rest.all isWordDashChar
  | c :: rest => isAsciiAlpha c && rest.all isWordDashChar
  | [] => false

/-- A single-event workflow whose event carries `duration_ms = 0`. -/
def c8SingleEvent : RawEvent :=
  { id := 1, timestamp := 100, toolName := "tf", commandPath := ["tf", "apply"],
    flagsPresent := [], exitCode := some 0, durationMs := some 0,
    actorIdHash := "a1", machineIdHash := "m1", sessionHint := none,
    ciDetected := false, sessionId := some 1, workflowRunId := none }

/-- An event whose command path is empty (as produced by the ingestion
validator from, e.g., `[" "]`). -/
def c10EmptyPathEvent : RawEvent :=
  { id := 1, timestamp := 0, toolName := "tf", commandPath := [],
    flagsPresent := [], exitCode := some 0, durationMs := none,
    actorIdHash := "a1", machineIdHash := "m1", sessionHint := none,
    ciDetected := false, sessionId := some 1, workflowRunId := none }

/-- A fully valid ingest event body. -/
def c5GoodEvent : EventJson :=
  { timestamp := some 0, toolName := some "tf", toolVersion := none,
    commandPath := some ["tf", "apply"], flagsPresent := some ["--verbose"],
    exitCode := some 0, durationMs := some 5, errorType := none,
    actorId := some "u1", machineId := some "m1", sessionHint := none,
    ciDetected := none }

/-- The same body with an invalid `duration_ms` (violates `ge=0`). -/
def c5BadEvent : EventJson :=
  { c5GoodEvent with durationMs := some (-5) }

/-- An ingested event of tool `toola`. -/
def c6EventA : NewEventData :=
  { timestamp := 0, toolName := "toola", commandPath := ["toola", "plan"],
    flagsPresent := [], exitCode := some 0, durationMs := none,
    actorIdHash := "a1", machineIdHash := "m1", sessionHint := none,
    ciDetected := false }

/-- An event of a different tool, same actor and machine, five time
units later. -/
def c6EventB : NewEventData :=
  { c6EventA with toolName := "toolb", commandPath := ["toolb", "plan"], timestamp := 5 }

/-- A store holding one `toola` and one `toolb` event. -/
def c6Store : Store :=
  ingestEvents emptyStore [c6EventA, c6EventB]

/-- A store holding only one `toola` event (the caller's tenant in the
C1 scenario is `toola`). -/
def c1StoreOwn : Store :=
  ingestEvents emptyStore [c6EventA]

/-- The same store with one event of the foreign tool `toolb` added; the
two stores agree on every `toola` row. -/
def c1StoreBoth : Store :=
  ingestEvents emptyStore [c6EventA, c6EventB]

/-- A store whose only (workflow-tagged) events belong to the foreign
tool `toolb`. -/
def c1ForeignStore : Store :=
  { emptyStore with
    events :=
      [{ id := 1, timestamp := 0, toolName := "toolb",
         commandPath := ["toolb", "init"], flagsPresent := [],
         exitCode := some 0, durationMs := none, actorIdHash := "x",
         machineIdHash := "y", sessionHint := none, ciDetected := false,
         sessionId := some 1, workflowRunId := some 1 },
       { id := 2, timestamp := 1, toolName := "toolb",
         commandPath := ["toolb", "apply"], flagsPresent := [],
         exitCode := some 0, durationMs := none, actorIdHash := "x",
         machineIdHash := "y", sessionHint := none, ciDetected := false,
         sessionId := some 1, workflowRunId := some 1 }] }

/-! ## C7 — flag-name sanitizer -/

/-- C7, counterexample.  The claim says a bare name with zero leading
dashes is accepted (pattern `-?-?[A-Za-z][A-Za-z0-9_-]*`): `"verbose"`
matches the claimed pattern and no blocked pattern, yet
`sanitize_flag_name` drops it — the code's allow-list pattern is
`^--?[a-zA-Z][a-zA-Z0-9_-]*$`, which requires at least one dash. -/
theorem c7_counterexample :
    sanitize_flag_name "verbose" = none
      ∧ specAllowedFlagPattern "verbose" = true
      ∧ isBlockedFlagName "verbose" = false := by
  decide

/-- C7, amended: for every input flag string, the normalizer first strips
everything from the first `=` or `:` onward and trims; the resulting name
is kept if and only if it matches `--?[A-Za-z][A-Za-z0-9_-]*` (at least
one and at most two leading dashes — a bare, dash-less name is dropped)
and does not match any of the blocked patterns (`token`, `password`,
`secret`, `key`, `auth`, `credential`, `api[-_]?key`,
case-insensitively); all other flags are dropped silently. -/
theorem c7_amended (flag : String) :
    sanitize_flag_name flag =
      (let name := stripStr (takeBeforeChar (takeBeforeChar flag '=') ':')
       if matchesAllowedFlagPattern name && !isBlockedFlagName name then some name
       else none) := by
  unfold sanitize_flag_name
  by_cases h0 : stripStr (takeBeforeChar (takeBeforeChar flag '=') ':') = ""
  · rw [h0]
    decide
  · by_cases hb : isBlockedFlagName (stripStr (takeBeforeChar (takeBeforeChar flag '=') ':'))
    · simp [h0, hb]
    · by_cases ha : matchesAllowedFlagPattern (stripStr (takeBeforeChar (takeBeforeChar flag '=') ':'))
      · simp [h0, hb, ha]
      · simp [h0, hb, ha]

/-! ## C8 — workflow duration -/

/-- C8, counterexample.  For a single-event workflow whose event has
`duration_ms = 0` (present, zero), the claim says the workflow's
`duration_ms` is `0`; the code's `elif events[0].duration_ms:` treats the
falsy `0` as absent and leaves the workflow duration null. -/
theorem c8_counterexample :
    ((create_workflow emptyStore 1 [c8SingleEvent] false).2.map
        (fun w => w.durationMs)) = some none
      ∧ c8SingleEvent.durationMs = some 0 := by
  decide

/-- C8, amended: for every workflow run with at least 2 events,
`duration_ms` is the difference between the last and first event
timestamps; for a single-event workflow it equals that event's
`duration_ms` whenever it is present AND non-zero, and is null when the
event's duration is absent or zero. -/
theorem c8_amended (st : Store) (sid : Nat) (h : RawEvent) (t : List RawEvent)
    (b : Bool) :
    ∃ w, (create_workflow st sid (h :: t) b).2 = some w
      ∧ (t ≠ [] → w.durationMs = some ((t.getLastD h).timestamp - h.timestamp))
      ∧ (t = [] → h.durationMs ≠ some 0 → w.durationMs = h.durationMs)
      ∧ (t = [] → h.durationMs = some 0 → w.durationMs = none) := by
  refine ⟨mkWorkflowRow st.nextWorkflowId sid h t b, rfl, ?_, ?_, ?_⟩
  · intro ht
    cases t with
    | nil => exact absurd rfl ht
    | cons x xs =>
      cases hgl : (x :: xs).getLast? with
      | none => exact absurd hgl (by simp [List.getLast?_eq_none_iff])
      | some l =>
        simp [mkWorkflowRow, workflow_duration, hgl, List.getLastD_eq_getLast?]
  · intro ht hd
    subst ht
    cases hdm : h.durationMs with
    | none => simp [mkWorkflowRow, workflow_duration, hdm]
    | some d =>
      have hd0 : d ≠ 0 := by
        intro h0
        exact hd (by rw [hdm, h0])
      simp [mkWorkflowRow, workflow_duration, hdm, hd0]
  · intro ht hd
    subst ht
    simp [mkWorkflowRow, workflow_duration, hd]

/-- C8 witness: the amended statement applied to a concrete two-event
workflow and a concrete zero-duration single-event workflow. -/
theorem c8_amended_witness :
    ∃ w, (create_workflow emptyStore 1 [c8SingleEvent] false).2 = some w
      ∧ ([] ≠ ([] : List RawEvent) → w.durationMs = some 0)
      ∧ ([] = ([] : List RawEvent) → c8SingleEvent.durationMs ≠ some 0 → w.durationMs = c8SingleEvent.durationMs)
      ∧ ([] = ([] : List RawEvent) → c8SingleEvent.durationMs = some 0 → w.durationMs = none) := by
  have h := c8_amended emptyStore 1 c8SingleEvent [] false
  obtain ⟨w, hw, h1, h2, h3⟩ := h
  exact ⟨w, hw, fun hne => absurd rfl hne, h2, h3⟩

/-! ## C10 — total last-token classifiers -/

/-- C10: the last-token classifiers are total on arbitrary token lists:
on an empty command path both return `false` instead of indexing out of
bounds; the ingestion validator can produce such an empty path (from
`[""]`); an empty-path event flows through workflow inference (the
workflow is simply not terminal, hence `ABANDONED`) and through the
recommender's pair mining (it contributes no pair and resets nothing
but the previous-command cursor). -/
theorem c10_classifiers_total_on_empty_path :
    is_entry_command [] = false
      ∧ is_terminal_command [] = false
      ∧ validate_command_path_field [""] = []
      ∧ ((create_workflow emptyStore 1 [c10EmptyPathEvent] false).2.map
          (fun w => w.outcome)) = some "ABANDONED"
      ∧ build_command_pairs
          [(some 1, ([] : List String), some 0), (some 1, ["x", "test"], some 0)] = []
      ∧ (run_inference 30
          (ingestEvents emptyStore
            [{ timestamp := 0, toolName := "tf", commandPath := [],
               flagsPresent := [], exitCode := some 0, durationMs := none,
               actorIdHash := "a1", machineIdHash := "m1", sessionHint := none,
               ciDetected := false }])).workflows.length = 1 := by
  decide

/-! ## C6 — sessions and workflows carry no tenant label -/

/-- C6: two events of DIFFERENT tools (`toola`, `toolb`) for the same
(actor, machine), five time units apart, are placed in the SAME session
and the same workflow by inference — the partition key is only
(actor hash, machine hash), and neither the `Session` nor the
`WorkflowRun` ORM model has a tool-name column for inference to fill
(the columns created by migration 004 are never written by the
application). -/
theorem c6_sessions_share_across_tools :
    c6EventA.toolName ≠ c6EventB.toolName
      ∧ (run_inference 30 c6Store).sessions.length = 1
      ∧ ((run_inference 30 c6Store).events.map (fun e => e.sessionId))
          = [some 1, some 1]
      ∧ ((run_inference 30 c6Store).workflows.map (fun w => w.sessionId)) = [1] := by
  decide

/-! ## C1 — reads are not tenant-scoped -/

/-- C1: the read endpoints compute over rows of every tool.  Concretely:
(i) two stores that agree on every `toola` row (the caller's tenant) give
different summary-report totals, because the totals count all rows with
no tool predicate; and (ii) the recommender's sequence query returns the
rows of a store containing only foreign-tool (`toolb`) events, so those
rows feed any caller's pair mining.  (In the source, `reports.py` and
`recommendations.py` take no credential at all and filter on nothing
tenant-related.) -/
theorem c1_reads_not_tenant_scoped :
    (c1StoreBoth.events.filter (fun e => e.toolName = "toola"))
        = (c1StoreOwn.events.filter (fun e => e.toolName = "toola"))
      ∧ summary_report_totals c1StoreOwn ≠ summary_report_totals c1StoreBoth
      ∧ recommendation_event_rows c1ForeignStore ≠ []
      ∧ build_command_pairs (recommendation_event_rows c1ForeignStore) ≠ [] := by
  decide

/-! ## C5 — batch ingestion is all-or-nothing on validation -/

/-- C5: a batch of two events, one valid and one failing validation
(`duration_ms = -5` violates `ge=0`), is rejected WHOLE: FastAPI
validates the request body against `BatchEventInput` before
`ingest_events` runs, so the handler's per-event skip-and-count loop is
never reached and the valid event is not persisted.  The claim's
accepted=1/rejected=1 outcome does not occur. -/
theorem c5_invalid_event_fails_whole_batch :
    ingest_batch_request (fun _ => "0123456789abcdef") emptyStore
        [c5GoodEvent, c5BadEvent] = Except.error 422
      ∧ (validate_event_input c5GoodEvent).isSome = true
      ∧ validate_event_input c5BadEvent = none
      ∧ ingest_batch_request (fun _ => "0123456789abcdef") emptyStore [c5GoodEvent]
          = Except.ok
              (ingestEvents emptyStore
                [{ timestamp := 0, toolName := "tf", commandPath := ["tf", "apply"],
                   flagsPresent := ["--verbose"], exitCode := some 0,
                   durationMs := some 5,
                   actorIdHash := "0123456789abcdef",
                   machineIdHash := "0123456789abcdef", sessionHint := none,
                   ciDetected := false }], 1, 0) := by
  exact ⟨rfl, rfl, rfl, rfl⟩


/-! ## C9 — variant assignment stability -/

/-- An existing assignment is still found after appending rows (the
lookup returns the first match, and rows are only ever appended). -/
theorem find_assignment_append (assigns l2 : List AssignmentRow) (expId : Nat)
    (actorHash : String) (a : AssignmentRow)
    (h : find_assignment assigns expId actorHash = some a) :
    find_assignment (assigns ++ l2) expId actorHash = some a := by
  unfold find_assignment at h ⊢
  rw [List.find?_append, h]
  rfl

/-- The assignment table left by one `get_variant` call: unchanged, or
extended by one appended row. -/
theorem get_variant_next_state (sha16 : String → String) (exp2 : ExperimentRow)
    (actorId2 : String) (assigns : List AssignmentRow) :
    (match get_variant sha16 exp2 actorId2 assigns with
     | some p => p.2
     | none => assigns) = assigns
    ∨ ∃ row : AssignmentRow,
      (match get_variant sha16 exp2 actorId2 assigns with
       | some p => p.2
       | none => assigns) = assigns ++ [row] := by
  unfold get_variant
  cases hf : find_assignment assigns exp2.id (sha16 actorId2) with
  | some a => left; simp [hf]
  | none =>
    cases hh : hexToNat? (sha16 actorId2) with
    | none => left; simp [hf, hh]
    | some n =>
      cases hv : exp2.variants with
      | nil => left; simp [hf, hh, hv]
      | cons v0 vs =>
        right
        refine ⟨{ experimentId := exp2.id, actorIdHash := sha16 actorId2,
                  variant := exp2.variants.getD (n % exp2.variants.length) v0 }, ?_⟩
        simp [hf, hh, hv]

/-- One `get_variant` call (for any experiment and actor) preserves every
existing assignment lookup. -/
theorem get_variant_preserves_lookup (sha16 : String → String)
    (exp2 : ExperimentRow) (actorId2 : String) (assigns : List AssignmentRow)
    (expId : Nat) (actorHash : String) (a : AssignmentRow)
    (h : find_assignment assigns expId actorHash = some a) :
    find_assignment
      (match get_variant sha16 exp2 actorId2 assigns with
       | some p => p.2
       | none => assigns) expId actorHash = some a := by
  rcases get_variant_next_state sha16 exp2 actorId2 assigns with hst | ⟨row, hst⟩
  · rw [hst]; exact h
  · rw [hst]; exact find_assignment_append assigns [row] expId actorHash a h

/-- A whole sequence of further calls preserves every existing
assignment lookup. -/
theorem run_variant_calls_preserves_lookup (sha16 : String → String)
    (calls : List (ExperimentRow × String)) (assigns : List AssignmentRow)
    (expId : Nat) (actorHash : String) (a : AssignmentRow)
    (h : find_assignment assigns expId actorHash = some a) :
    find_assignment (run_variant_calls sha16 calls assigns) expId actorHash = some a := by
  induction calls generalizing assigns with
  | nil => simpa [run_variant_calls] using h
  | cons c cs ih =>
    have step := get_variant_preserves_lookup sha16 c.1 c.2 assigns expId actorHash a h
    unfold run_variant_calls at ih ⊢
    rw [List.foldl_cons]
    exact ih _ step

/-- C9: for an active experiment with a non-empty variant list, the first
`get_variant` call for an actor with no stored assignment picks
`variants[int(sha256(actor)[:16], 16) mod len(variants)]`, stores it under
`actor_id_hash = sha256(actor)[:16]`, and every later call for the same
experiment and actor returns exactly the same variant with the table
unchanged, regardless of how many calls for other experiments or actors
intervene or in what order they arrive. -/
theorem c9_variant_assignment_stable (sha16 : String → String)
    (exp : ExperimentRow) (actorId : String) (assigns : List AssignmentRow)
    (hactive : exp.isActive = true)
    (hvars : exp.variants ≠ [])
    (hhex : (hexToNat? (sha16 actorId)).isSome = true)
    (hnew : find_assignment assigns exp.id (sha16 actorId) = none) :
    ∃ (v : String) (hi : Nat),
      hexToNat? (sha16 actorId) = some hi
        ∧ exp.variants.get? (hi % exp.variants.length) = some v
        ∧ get_variant sha16 exp actorId assigns =
            some (v, assigns ++
              [{ experimentId := exp.id, actorIdHash := sha16 actorId, variant := v }])
        ∧ ∀ calls : List (ExperimentRow × String),
            get_variant sha16 exp actorId
                (run_variant_calls sha16 calls
                  (assigns ++
                    [{ experimentId := exp.id, actorIdHash := sha16 actorId,
                       variant := v }])) =
              some (v,
                run_variant_calls sha16 calls
                  (assigns ++
                    [{ experimentId := exp.id, actorIdHash := sha16 actorId,
                       variant := v }])) := by
  cases hh : hexToNat? (sha16 actorId) with
  | none => rw [hh] at hhex; simp at hhex
  | some hi =>
    cases hv : exp.variants with
    | nil => exact absurd hv hvars
    | cons v0 vs =>
      have hlt : hi % (v0 :: vs).length < (v0 :: vs).length := by
        refine Nat.mod_lt _ ?_
        simp
      refine ⟨(v0 :: vs).getD (hi % (v0 :: vs).length) v0, hi, rfl, ?_, ?_, ?_⟩
      · rw [List.getD_eq_getElem?_getD, List.getElem?_eq_getElem hlt]
        rw [List.get?_eq_getElem?, List.getElem?_eq_getElem hlt]
        rfl
      · simp only [get_variant, hnew, hh, hv]
      · intro calls
        have hrow : find_assignment
            (assigns ++
              [{ experimentId := exp.id, actorIdHash := sha16 actorId,
                 variant := (v0 :: vs).getD (hi % (v0 :: vs).length) v0 }])
            exp.id (sha16 actorId) =
            some { experimentId := exp.id, actorIdHash := sha16 actorId,
                   variant := (v0 :: vs).getD (hi % (v0 :: vs).length) v0 } := by
          unfold find_assignment at hnew ⊢
          rw [List.find?_append, hnew]
          simp [List.find?]
        have hkeep := run_variant_calls_preserves_lookup sha16 calls _ exp.id
          (sha16 actorId) _ hrow
        simp only [get_variant, hkeep]

/-- A concrete stand-in for `sha256(...).hexdigest()[:16]`. -/
def c9Sha : String → String := fun _ => "ab"

/-- A concrete active experiment with two variants. -/
def c9Exp : ExperimentRow :=
  { id := 1, name := "checkout", toolName := "tf",
    variants := ["control", "v1"], isActive := true }

/-- C9 witness: the stability theorem applied to a concrete experiment,
actor and hash function, with every hypothesis discharged by
computation. -/
theorem c9_variant_assignment_stable_witness :
    (c9Exp.isActive = true
        ∧ c9Exp.variants ≠ []
        ∧ (hexToNat? (c9Sha "alice")).isSome = true
        ∧ find_assignment [] c9Exp.id (c9Sha "alice") = none)
      ∧ ∃ (v : String) (hi : Nat),
          hexToNat? (c9Sha "alice") = some hi
            ∧ c9Exp.variants.get? (hi % c9Exp.variants.length) = some v
            ∧ get_variant c9Sha c9Exp "alice" [] =
                some (v, [] ++
                  [{ experimentId := c9Exp.id, actorIdHash := c9Sha "alice", variant := v }])
            ∧ ∀ calls : List (ExperimentRow × String),
                get_variant c9Sha c9Exp "alice"
                    (run_variant_calls c9Sha calls
                      ([] ++
                        [{ experimentId := c9Exp.id, actorIdHash := c9Sha "alice",
                           variant := v }])) =
                  some (v,
                    run_variant_calls c9Sha calls
                      ([] ++
                        [{ experimentId := c9Exp.id, actorIdHash := c9Sha "alice",
                           variant := v }])) :=
  ⟨⟨by decide, by decide, by decide, by decide⟩,
    c9_variant_assignment_stable c9Sha c9Exp "alice" []
      (by decide) (by decide) (by decide) (by decide)⟩

/-! ## C3 — workflow outcomes

The per-session walk of `infer_workflows` is characterized as chunking
the sorted event list at the boundary predicate and running
`create_workflow` once per chunk (mid-walk closes with
`is_timeout=False`, the trailing close with
`is_timeout = not is_terminal(last)`); the claim's outcome rules are then
verified chunk by chunk.
-/

/-- Split a list into maximal runs, breaking between `prev` and `e`
whenever `B prev e`; `buf` is the (non-empty) run under construction. -/
def chunksGo (B : RawEvent → RawEvent → Bool) (buf : List RawEvent) :
    List RawEvent → List (List RawEvent)
  | [] => [buf]
  | e :: rest =>
    match buf.getLast? with
    | none => chunksGo B [e] rest
    | some prev =>
      if B prev e then buf :: chunksGo B [e] rest
      else chunksGo B (buf ++ [e]) rest

/-- The chunk decomposition of a list at boundary `B`. -/
def chunksBy (B : RawEvent → RawEvent → Bool) : List RawEvent → List (List RawEvent)
  | [] => []
  | e :: rest => chunksGo B [e] rest

/-- The `is_timeout` flag `infer_workflows` passes for the trailing
workflow: `not is_terminal(last event)`. -/
def trailingFlag (c : List RawEvent) : Bool :=
  match c.getLast? with
  | some lastE => !is_terminal_command lastE.commandPath
  | none => false

/-- Run `create_workflow` over a chunk list: every chunk but the last is
a mid-walk close (`is_timeout=False`), the last is the trailing close. -/
def applyChunks (sid : Nat) (st : Store) : List (List RawEvent) → Store
  | [] => st
  | c :: cs =>
    let flag := if cs.isEmpty then trailingFlag c else false
    applyChunks sid (create_workflow st sid c flag).1 cs

/-- The workflow rows `applyChunks` appends, starting from workflow id
`w0` (for non-empty chunks). -/
def chunkRows (sid w0 : Nat) : List (List RawEvent) → List WorkflowRow
  | [] => []
  | c :: cs =>
    let flag := if cs.isEmpty then trailingFlag c else false
    (match c with
     | [] => []
     | h :: t => [mkWorkflowRow w0 sid h t flag]) ++ chunkRows sid (w0 + 1) cs

theorem chunksGo_ne_nil (B : RawEvent → RawEvent → Bool) (buf : List RawEvent)
    (rest : List RawEvent) : chunksGo B buf rest ≠ [] := by
  induction rest generalizing buf with
  | nil => simp [chunksGo]
  | cons e rest ih =>
    unfold chunksGo
    cases hb : buf.getLast? with
    | none => exact ih [e]
    | some prev =>
      by_cases hB : B prev e
      · simp [hB]
      · simpa [hB] using ih (buf ++ [e])

theorem chunksGo_flatten (B : RawEvent → RawEvent → Bool) (rest buf : List RawEvent) :
    (chunksGo B buf rest).flatten = buf ++ rest := by
  induction rest generalizing buf with
  | nil => simp [chunksGo]
  | cons e rest ih =>
    unfold chunksGo
    cases hb : buf.getLast? with
    | none =>
      have hbuf : buf = [] := by
        cases buf with
        | nil => rfl
        | cons x xs => simp [List.getLast?_eq_none_iff] at hb
      subst hbuf
      simpa using ih [e]
    | some prev =>
      dsimp only
      by_cases hB : B prev e
      · rw [if_pos hB, List.flatten_cons, ih [e]]
        simp
      · rw [if_neg hB, ih (buf ++ [e])]
        simp

theorem chunksGo_all_ne_nil (B : RawEvent → RawEvent → Bool) (rest buf : List RawEvent)
    (hbuf : buf ≠ []) : ∀ c ∈ chunksGo B buf rest, c ≠ [] := by
  induction rest generalizing buf with
  | nil => simpa [chunksGo] using hbuf
  | cons e rest ih =>
    unfold chunksGo
    cases hb : buf.getLast? with
    | none =>
      exact absurd (List.getLast?_eq_none_iff.mp hb) hbuf
    | some prev =>
      dsimp only
      by_cases hB : B prev e
      · rw [if_pos hB]
        intro c hc
        rcases List.mem_cons.mp hc with rfl | hc
        · exact hbuf
        · exact ih [e] (by simp) c hc
      · rw [if_neg hB]
        exact ih (buf ++ [e]) (by simp)

/-- The per-session walk equals the chunk decomposition followed by one
`create_workflow` per chunk. -/
theorem wfWalk_eq_applyChunks (T : Int) (sid : Nat) (rest : List RawEvent) :
    ∀ (st : Store) (buf : List RawEvent), buf ≠ [] →
      wfWalk T sid st buf rest = applyChunks sid st (chunksGo (wfBoundary T) buf rest) := by
  induction rest with
  | nil =>
    intro st buf hbuf
    cases hb : buf.getLast? with
    | none => exact absurd (List.getLast?_eq_none_iff.mp hb) hbuf
    | some lastE =>
      simp only [wfWalk, chunksGo, applyChunks, hb, trailingFlag, List.isEmpty_nil,
        if_true]
  | cons e rest ih =>
    intro st buf hbuf
    cases hb : buf.getLast? with
    | none => exact absurd (List.getLast?_eq_none_iff.mp hb) hbuf
    | some prev =>
      by_cases hB : wfBoundary T prev e
      · have hcs := chunksGo_ne_nil (wfBoundary T) [e] rest
        cases hcs2 : chunksGo (wfBoundary T) [e] rest with
        | nil => exact absurd hcs2 hcs
        | cons c2 cs2 =>
          simp only [wfWalk, chunksGo, hb, hB, if_true]
          rw [ih _ [e] (by simp), hcs2]
          simp only [applyChunks, List.isEmpty_cons, if_false]
          rfl
      · simp only [wfWalk, chunksGo, hb, hB, if_false]
        exact ih st (buf ++ [e]) (by simp)

/-- `create_workflow` on a non-empty chunk: the store change, spelled
out. -/
theorem create_workflow_cons (st : Store) (sid : Nat) (h : RawEvent)
    (t : List RawEvent) (b : Bool) :
    create_workflow st sid (h :: t) b =
      ({ st with
          workflows := st.workflows ++ [mkWorkflowRow st.nextWorkflowId sid h t b],
          steps := st.steps ++ mkStepRows st.nextWorkflowId (h :: t),
          events := setWorkflowIds st.events ((h :: t).map (fun e => e.id)) st.nextWorkflowId,
          nextWorkflowId := st.nextWorkflowId + 1 },
        some (mkWorkflowRow st.nextWorkflowId sid h t b)) := rfl

/-- `applyChunks` appends exactly the `chunkRows`, consuming one
workflow id per (non-empty) chunk and leaving the session table
alone. -/
theorem applyChunks_workflows (sid : Nat) (cs : List (List RawEvent)) :
    ∀ st : Store, (∀ c ∈ cs, c ≠ []) →
      (applyChunks sid st cs).workflows
          = st.workflows ++ chunkRows sid st.nextWorkflowId cs
        ∧ (applyChunks sid st cs).nextWorkflowId = st.nextWorkflowId + cs.length := by
  induction cs with
  | nil => intro st _; simp [applyChunks, chunkRows]
  | cons c cs ih =>
    intro st hne
    cases hc : c with
    | nil =>
      subst hc
      exact absurd rfl (hne [] (by simp))
    | cons h t =>
      have hne2 : ∀ c2 ∈ cs, c2 ≠ [] := fun c2 hc2 => hne c2 (List.mem_cons_of_mem _ hc2)
      simp only [applyChunks, chunkRows, create_workflow_cons]
      have := ih ({ st with
          workflows := st.workflows ++
            [mkWorkflowRow st.nextWorkflowId sid h t (if cs.isEmpty then trailingFlag (h :: t) else false)],
          steps := st.steps ++ mkStepRows st.nextWorkflowId (h :: t),
          events := setWorkflowIds st.events ((h :: t).map (fun e => e.id)) st.nextWorkflowId,
          nextWorkflowId := st.nextWorkflowId + 1 }) hne2
      rcases this with ⟨hw, hn⟩
      constructor
      · rw [hw]
        simp [List.append_assoc]
      · rw [hn]
        simp
        omega

theorem chunkRows_length (sid : Nat) (cs : List (List RawEvent)) :
    ∀ w0 : Nat, (∀ c ∈ cs, c ≠ []) → (chunkRows sid w0 cs).length = cs.length := by
  induction cs with
  | nil => intro w0 _; simp [chunkRows]
  | cons c cs ih =>
    intro w0 hne
    cases hc : c with
    | nil =>
      subst hc
      exact absurd rfl (hne [] (by simp))
    | cons h t =>
      simp only [chunkRows, List.length_append, List.length_cons, List.length_nil]
      rw [ih (w0 + 1) (fun c2 hc2 => hne c2 (List.mem_cons_of_mem _ hc2))]
      omega

theorem chunkRows_get (sid : Nat) (cs : List (List RawEvent)) :
    ∀ (w0 i : Nat) (h : RawEvent) (t : List RawEvent), (∀ c ∈ cs, c ≠ []) →
      cs.get? i = some (h :: t) →
      (chunkRows sid w0 cs).get? i =
        some (mkWorkflowRow (w0 + i) sid h t
          (if i + 1 = cs.length then trailingFlag (h :: t) else false)) := by
  induction cs with
  | nil => intro w0 i h t _ hget; simp at hget
  | cons c cs ih =>
    intro w0 i h t hne hget
    cases hc : c with
    | nil =>
      subst hc
      exact absurd rfl (hne [] (by simp))
    | cons h0 t0 =>
      subst hc
      cases i with
      | zero =>
        simp only [List.get?_cons_zero, Option.some.injEq] at hget
        cases hget
        cases cs with
        | nil => simp [chunkRows]
        | cons c2 cs2 => simp [chunkRows, List.length_cons]
      | succ j =>
        simp only [List.get?_cons_succ] at hget
        have hne2 : ∀ c2 ∈ cs, c2 ≠ [] := fun c2 hc2 => hne c2 (List.mem_cons_of_mem _ hc2)
        have hrec := ih (w0 + 1) j h t hne2 hget
        simp only [chunkRows, List.cons_append, List.nil_append, List.get?_cons_succ]
        rw [hrec]
        have h1 : w0 + 1 + j = w0 + (j + 1) := by omega
        rw [h1]
        by_cases hj : j + 1 = cs.length
        · rw [if_pos hj, if_pos (by simp only [List.length_cons]; omega)]
        · rw [if_neg hj, if_neg (by simp only [List.length_cons]; omega)]

/-- The last element of a non-empty list, `getLastD` form. -/
theorem getLast?_cons_getLastD {α : Type} (h : α) (t : List α) :
    (h :: t).getLast? = some (t.getLastD h) := by
  rw [List.getLast?_cons, List.getLastD_eq_getLast?]

/-- The outcome ladder of the claim, given whether the workflow was
closed as timed-out in the claim's sense. -/
def c3_claim_outcome (timedOut : Bool) (e : RawEvent) : String :=
  if timedOut then "ABANDONED"
  else if !is_terminal_command e.commandPath then "ABANDONED"
  else match e.exitCode with
    | none => "ABANDONED"
    | some c => if c = 0 then "SUCCESS" else "FAILED"

/-- Whether chunk `i` is "closed as timed-out" in the claim's sense: a
mid-walk chunk whose gap to the next event exceeds `T` while its last
event is not a terminal command with non-null exit code, or the trailing
chunk when its last event is not terminal. -/
def c3_timeout_close (T : Int) (cs : List (List RawEvent)) (i : Nat) : Bool :=
  match cs.get? i with
  | none => false
  | some c =>
    match c.getLast? with
    | none => false
    | some lastE =>
      match cs.get? (i + 1) with
      | none => !is_terminal_command lastE.commandPath
      | some cnext =>
        match cnext.head? with
        | none => false
        | some nx =>
          decide (T < nx.timestamp - lastE.timestamp)
            && !(is_terminal_command lastE.commandPath && lastE.exitCode.isSome)

/-- The code's outcome for a trailing chunk equals the claim's ladder
with the claim's trailing timed-out attribute. -/
theorem determine_eq_claim_trailing (e : RawEvent) :
    determine_outcome e.exitCode (is_terminal_command e.commandPath)
        (!is_terminal_command e.commandPath)
      = c3_claim_outcome (!is_terminal_command e.commandPath) e := by
  by_cases hterm : is_terminal_command e.commandPath
  · cases hec : e.exitCode with
    | none => simp [determine_outcome, c3_claim_outcome, hterm, hec]
    | some c => simp [determine_outcome, c3_claim_outcome, hterm, hec]
  · simp [determine_outcome, c3_claim_outcome, hterm]

/-- The code's outcome for a mid-walk chunk (always closed with
`is_timeout=False`) equals the claim's ladder with the claim's
gap-based timed-out attribute, whatever the gap is. -/
theorem determine_eq_claim_mid (g : Bool) (e : RawEvent) :
    determine_outcome e.exitCode (is_terminal_command e.commandPath) false
      = c3_claim_outcome
          (g && !(is_terminal_command e.commandPath && e.exitCode.isSome)) e := by
  by_cases hterm : is_terminal_command e.commandPath
  · cases hec : e.exitCode with
    | none => cases g <;> simp [determine_outcome, c3_claim_outcome, hterm, hec]
    | some c => cases g <;> simp [determine_outcome, c3_claim_outcome, hterm, hec]
  · cases g <;> simp [determine_outcome, c3_claim_outcome, hterm]

/-- The per-session walk as `applyChunks` over the boundary chunking of
the sorted events. -/
theorem infer_session_eq_chunks (T : Int) (st : Store) (sid : Nat)
    (evs : List RawEvent) :
    infer_session_workflows T st sid evs
      = applyChunks sid st
          (chunksBy (wfBoundary T) (sortByKey (fun e => e.timestamp) evs)) := by
  unfold infer_session_workflows
  by_cases he : evs.isEmpty
  · have hevs : evs = [] := List.isEmpty_iff.mp he
    subst hevs
    simp [sortByKey, sortBy, chunksBy, applyChunks]
  · rw [if_neg he]
    cases hs : sortByKey (fun e => e.timestamp) evs with
    | nil => simp [wfWalk, chunksBy, applyChunks]
    | cons e rest =>
      have h1 : wfWalk T sid st [] (e :: rest) = wfWalk T sid st [e] rest := by
        simp [wfWalk]
      rw [h1, chunksBy, wfWalk_eq_applyChunks T sid rest st [e] (by simp)]

/-- The workflow rows added by the per-session walk of
`infer_workflows`, in creation order. -/
def createdWorkflows (T : Int) (st : Store) (sid : Nat) (evs : List RawEvent) :
    List WorkflowRow :=
  (infer_session_workflows T st sid evs).workflows.drop st.workflows.length

/-- Every chunk of a non-trivial chunking is non-empty. -/
theorem chunksBy_all_ne_nil (B : RawEvent → RawEvent → Bool) (l : List RawEvent) :
    ∀ c ∈ chunksBy B l, c ≠ [] := by
  cases l with
  | nil => simp [chunksBy]
  | cons e rest => exact chunksGo_all_ne_nil B rest [e] (by simp)

/-- C3: every workflow run created by the per-session walk of
`infer_workflows` takes its outcome from its last event E by the claim's
ordered rules: a workflow closed as timed-out in the claim's sense (a
mid-walk close whose gap to the next event exceeds T when E is not a
terminal command with non-null exit code, or a trailing workflow whose
last event is not terminal) is ABANDONED; otherwise ABANDONED when E's
last token is not terminal; otherwise ABANDONED when E's exit code is
null; otherwise SUCCESS exactly when the exit code is 0, else FAILED. -/
theorem c3_outcome_rules (T : Int) (st : Store) (sid : Nat) (evs : List RawEvent) :
    (createdWorkflows T st sid evs).length
        = (chunksBy (wfBoundary T) (sortByKey (fun e => e.timestamp) evs)).length
      ∧ ∀ (i : Nat) (c : List RawEvent),
          (chunksBy (wfBoundary T) (sortByKey (fun e => e.timestamp) evs)).get? i
              = some c →
          ∃ (h : RawEvent) (t : List RawEvent) (row : WorkflowRow),
            c = h :: t
              ∧ (createdWorkflows T st sid evs).get? i = some row
              ∧ row.outcome =
                  c3_claim_outcome
                    (c3_timeout_close T
                      (chunksBy (wfBoundary T) (sortByKey (fun e => e.timestamp) evs)) i)
                    (t.getLastD h) := by
  have hall := chunksBy_all_ne_nil (wfBoundary T) (sortByKey (fun e => e.timestamp) evs)
  have hchar := infer_session_eq_chunks T st sid evs
  have hrows := applyChunks_workflows sid
    (chunksBy (wfBoundary T) (sortByKey (fun e => e.timestamp) evs)) st hall
  have hcreated : createdWorkflows T st sid evs
      = chunkRows sid st.nextWorkflowId
          (chunksBy (wfBoundary T) (sortByKey (fun e => e.timestamp) evs)) := by
    unfold createdWorkflows
    rw [hchar, hrows.1, List.drop_left]
  constructor
  · rw [hcreated]
    exact chunkRows_length sid _ st.nextWorkflowId hall
  · intro i c hget
    have hcne : c ≠ [] := hall c (List.get?_mem hget)
    cases hc : c with
    | nil => exact absurd hc hcne
    | cons h t =>
      subst hc
      refine ⟨h, t, mkWorkflowRow (st.nextWorkflowId + i) sid h t
        (if i + 1 = (chunksBy (wfBoundary T) (sortByKey (fun e => e.timestamp) evs)).length
         then trailingFlag (h :: t) else false), rfl, ?_, ?_⟩
      · rw [hcreated]
        exact chunkRows_get sid _ st.nextWorkflowId i h t hall hget
      · unfold c3_timeout_close
        rw [hget]
        dsimp only
        rw [getLast?_cons_getLastD]
        dsimp only
        by_cases hlast : i + 1
            = (chunksBy (wfBoundary T) (sortByKey (fun e => e.timestamp) evs)).length
        · have hnone : (chunksBy (wfBoundary T)
              (sortByKey (fun e => e.timestamp) evs)).get? (i + 1) = none := by
            rw [List.get?_eq_none]
            omega
          rw [hnone, if_pos hlast]
          have htf : trailingFlag (h :: t)
              = !is_terminal_command (t.getLastD h).commandPath := by
            unfold trailingFlag
            rw [getLast?_cons_getLastD]
          rw [htf]
          dsimp only
          simp only [mkWorkflowRow]
          exact determine_eq_claim_trailing (t.getLastD h)
        · have hlt : i + 1
              < (chunksBy (wfBoundary T) (sortByKey (fun e => e.timestamp) evs)).length := by
            have hi : i
                < (chunksBy (wfBoundary T) (sortByKey (fun e => e.timestamp) evs)).length := by
              by_contra hcon
              rw [List.get?_eq_none.mpr (by omega)] at hget
              exact Option.noConfusion hget
            omega
          cases hc2 : (chunksBy (wfBoundary T)
              (sortByKey (fun e => e.timestamp) evs)).get? (i + 1) with
          | none =>
            rw [List.get?_eq_none] at hc2
            omega
          | some cnext =>
            have hcnne : cnext ≠ [] := hall cnext (List.get?_mem hc2)
            cases hcn : cnext with
            | nil => exact absurd hcn hcnne
            | cons h2 t2 =>
              subst hcn
              rw [if_neg hlast]
              dsimp only
              simp only [List.head?_cons, mkWorkflowRow]
              exact determine_eq_claim_mid _ (t.getLastD h)

/-- An `install` event (non-terminal, exit 0). -/
def c3Ev1 : RawEvent :=
  { id := 1, timestamp := 0, toolName := "npm", commandPath := ["npm", "install"],
    flagsPresent := [], exitCode := some 0, durationMs := none,
    actorIdHash := "a1", machineIdHash := "m1", sessionHint := none,
    ciDetected := false, sessionId := some 1, workflowRunId := none }

/-- A failing `test` event (terminal, exit 1). -/
def c3Ev2 : RawEvent :=
  { c3Ev1 with
    id := 2, timestamp := 1, commandPath := ["npm", "test"],
    exitCode := some 1 }

/-- C3 witness: the outcome rules applied to the concrete
`install(0), test(1)` session — one chunk, outcome `FAILED`. -/
theorem c3_outcome_rules_witness :
    (chunksBy (wfBoundary 30) (sortByKey (fun e => e.timestamp) [c3Ev1, c3Ev2])).get? 0
        = some [c3Ev1, c3Ev2]
      ∧ ∃ (h : RawEvent) (t : List RawEvent) (row : WorkflowRow),
          [c3Ev1, c3Ev2] = h :: t
            ∧ (createdWorkflows 30 emptyStore 1 [c3Ev1, c3Ev2]).get? 0 = some row
            ∧ row.outcome =
                c3_claim_outcome
                  (c3_timeout_close 30
                    (chunksBy (wfBoundary 30)
                      (sortByKey (fun e => e.timestamp) [c3Ev1, c3Ev2])) 0)
                  (t.getLastD h) :=
  ⟨by decide,
    (c3_outcome_rules 30 emptyStore 1 [c3Ev1, c3Ev2]).2 0 [c3Ev1, c3Ev2] (by decide)⟩

/-! ## C2 — session continuation and boundaries

The per-partition walk of `sessionize_events` is analysed step by step:
after any processed event the walk carries a current session whose
stored hint and CI flag are those of that event; the next event then
continues that session exactly when the hint and CI flag agree and the
gap is within the timeout, and otherwise a fresh session is created and
the old one is closed at its last event's timestamp.
-/

/-- The session-boundary predicate between two consecutive events, as
evaluated by the walk (the stored session's hint and CI flag equal the
previous event's, so the comparison is event-vs-event). -/
def sessBoundary (T : Int) (prev e : RawEvent) : Bool :=
  decide (prev.sessionHint ≠ e.sessionHint)
    || decide (prev.ciDetected ≠ e.ciDetected)
    || decide (T < e.timestamp - prev.timestamp)

/-- After a keyed in-place update, looking up the updated key yields the
updated row. -/
theorem find?_key_map_upd_self {α : Type} (key : α → Nat) (l : List α) (k : Nat)
    (f : α → α) (hf : ∀ x, key (f x) = key x) :
    (l.map (fun x => if key x = k then f x else x)).find? (fun x => key x = k)
      = (l.find? (fun x => key x = k)).map f := by
  induction l with
  | nil => simp [List.find?]
  | cons x xs ih =>
    by_cases hx : key x = k
    · rw [List.map_cons, if_pos hx,
        List.find?_cons_of_pos _ (by simp only [hf, decide_eq_true_eq]; exact hx),
        List.find?_cons_of_pos _ (by simp only [decide_eq_true_eq]; exact hx)]
      rfl
    · rw [List.map_cons, if_neg hx,
        List.find?_cons_of_neg _ (by simp only [decide_eq_true_eq]; exact hx),
        List.find?_cons_of_neg _ (by simp only [decide_eq_true_eq]; exact hx), ih]

/-- A keyed in-place update leaves every other key's lookup unchanged. -/
theorem find?_key_map_upd_ne {α : Type} (key : α → Nat) (l : List α) (k k2 : Nat)
    (f : α → α) (hf : ∀ x, key (f x) = key x) (hne : k2 ≠ k) :
    (l.map (fun x => if key x = k then f x else x)).find? (fun x => key x = k2)
      = l.find? (fun x => key x = k2) := by
  induction l with
  | nil => simp
  | cons x xs ih =>
    by_cases hx : key x = k
    · rw [List.map_cons, if_pos hx,
        List.find?_cons_of_neg _ (by
          simp only [hf, hx, decide_eq_true_eq]
          exact fun hh => hne hh.symm),
        List.find?_cons_of_neg _ (by
          simp only [hx, decide_eq_true_eq]
          exact fun hh => hne hh.symm), ih]
    · by_cases hx2 : key x = k2
      · rw [List.map_cons, if_neg hx,
          List.find?_cons_of_pos _ (by simp only [decide_eq_true_eq]; exact hx2),
          List.find?_cons_of_pos _ (by simp only [decide_eq_true_eq]; exact hx2)]
      · rw [List.map_cons, if_neg hx,
          List.find?_cons_of_neg _ (by simp only [decide_eq_true_eq]; exact hx2),
          List.find?_cons_of_neg _ (by simp only [decide_eq_true_eq]; exact hx2), ih]

/-- Appending a row with a fresh key: a lookup of another key is
unchanged. -/
theorem find?_key_append_ne {α : Type} (key : α → Nat) (l : List α) (x : α)
    (k : Nat) (hne : key x ≠ k) :
    (l ++ [x]).find? (fun y => key y = k) = l.find? (fun y => key y = k) := by
  rw [List.find?_append]
  cases h : l.find? (fun y => key y = k) with
  | some y => rfl
  | none =>
    simp only [Option.or]
    rw [List.find?_cons_of_neg _ (by simp only [decide_eq_true_eq]; exact hne)]
    rfl

/-- Appending a row whose key no existing row carries: the lookup of
that key finds the new row. -/
theorem find?_key_append_fresh {α : Type} (key : α → Nat) (l : List α) (x : α)
    (hfresh : ∀ y ∈ l, key y ≠ key x) :
    (l ++ [x]).find? (fun y => key y = key x) = some x := by
  rw [List.find?_append]
  have hl : l.find? (fun y => key y = key x) = none := by
    rw [List.find?_eq_none]
    intro y hy
    simp only [decide_eq_true_eq]
    exact hfresh y hy
  rw [hl]
  simp [List.find?]

theorem sessBoundary_eq_false_iff (T : Int) (e1 e2 : RawEvent) :
    sessBoundary T e1 e2 = false
      ↔ (e1.sessionHint = e2.sessionHint ∧ e1.ciDetected = e2.ciDetected
          ∧ e2.timestamp - e1.timestamp ≤ T) := by
  simp [sessBoundary, not_or, not_lt, and_assoc]

/-- The raw-event row carrying a given id. -/
def eventRow (st : Store) (eid : Nat) : Option RawEvent :=
  st.events.find? (fun e => e.id = eid)

/-- The session assigned to an event id by the store. -/
def assignedSidStore (st : Store) (eid : Nat) : Option Nat :=
  (eventRow st eid).bind (fun r => r.sessionId)

theorem eventRow_updEvent_self (st : Store) (eid : Nat) (f : RawEvent → RawEvent)
    (hf : ∀ e, (f e).id = e.id) :
    eventRow (updEvent st eid f) eid = (eventRow st eid).map f := by
  unfold eventRow updEvent
  exact find?_key_map_upd_self (fun e => e.id) st.events eid f hf

theorem eventRow_updEvent_ne (st : Store) (eid eid2 : Nat) (f : RawEvent → RawEvent)
    (hf : ∀ e, (f e).id = e.id) (hne : eid2 ≠ eid) :
    eventRow (updEvent st eid f) eid2 = eventRow st eid2 := by
  unfold eventRow updEvent
  exact find?_key_map_upd_ne (fun e => e.id) st.events eid eid2 f hf hne

theorem findSessionRow_updSession_self (st : Store) (sid : Nat)
    (f : SessionRow → SessionRow) (hf : ∀ s, (f s).id = s.id) :
    findSessionRow (updSession st sid f) sid = (findSessionRow st sid).map f := by
  unfold findSessionRow updSession
  exact find?_key_map_upd_self (fun s => s.id) st.sessions sid f hf

theorem findSessionRow_updSession_ne (st : Store) (sid sid2 : Nat)
    (f : SessionRow → SessionRow) (hf : ∀ s, (f s).id = s.id) (hne : sid2 ≠ sid) :
    findSessionRow (updSession st sid f) sid2 = findSessionRow st sid2 := by
  unfold findSessionRow updSession
  exact find?_key_map_upd_ne (fun s => s.id) st.sessions sid sid2 f hf hne

/-- The state invariant of the per-partition walk: session ids are below
the autoincrement counter, and the current session (when any) exists. -/
def SessInv (σ : SessState) : Prop :=
  (∀ s ∈ σ.st.sessions, s.id < σ.st.nextSessionId)
    ∧ (∀ sid, σ.cur = some sid → ∃ srow, findSessionRow σ.st sid = some srow)

/-- After processing an event, the walk's current session reflects it:
it is the session the event was attached to, it is the last buffered
event, and the stored session row carries the event's hint and CI
flag. -/
def CurMatches (σ : SessState) (e1 : RawEvent) (sid : Nat) : Prop :=
  σ.cur = some sid
    ∧ σ.curEvs.getLast? = some { e1 with sessionId := some sid }
    ∧ ∃ srow, findSessionRow σ.st sid = some srow
        ∧ srow.sessionHint = e1.sessionHint ∧ srow.ciDetected = e1.ciDetected

theorem eventRow_sessAttach_ne (st : Store) (sid : Nat) (curEvs : List RawEvent)
    (acc : List (Nat × List RawEvent)) (e : RawEvent) (eid : Nat) (hne : eid ≠ e.id) :
    eventRow (sessAttach st sid curEvs acc e).st eid = eventRow st eid :=
  eventRow_updEvent_ne st e.id eid _ (fun _ => rfl) hne

theorem eventRow_sessAttach_self (st : Store) (sid : Nat) (curEvs : List RawEvent)
    (acc : List (Nat × List RawEvent)) (e : RawEvent) :
    eventRow (sessAttach st sid curEvs acc e).st e.id
      = (eventRow st e.id).map (fun r => { r with sessionId := some sid }) :=
  eventRow_updEvent_self st e.id _ (fun _ => rfl)

theorem eventRow_sessStartNew_ne (st : Store) (a m : String)
    (acc : List (Nat × List RawEvent)) (e : RawEvent) (eid : Nat) (hne : eid ≠ e.id) :
    eventRow (sessStartNew st a m acc e).st eid = eventRow st eid := by
  unfold sessStartNew
  exact eventRow_sessAttach_ne _ _ _ _ _ _ hne

theorem eventRow_sessStartNew_self (st : Store) (a m : String)
    (acc : List (Nat × List RawEvent)) (e : RawEvent) :
    eventRow (sessStartNew st a m acc e).st e.id
      = (eventRow st e.id).map
          (fun r => { r with sessionId := some st.nextSessionId }) := by
  unfold sessStartNew
  exact eventRow_sessAttach_self _ _ _ _ _

/-- Updating a session row in place preserves the id multiset, hence
freshness bounds. -/
theorem updSession_fresh (st : Store) (sid : Nat) (f : SessionRow → SessionRow)
    (hf : ∀ s, (f s).id = s.id)
    (hfresh : ∀ s ∈ st.sessions, s.id < st.nextSessionId) :
    ∀ s ∈ (updSession st sid f).sessions, s.id < (updSession st sid f).nextSessionId := by
  intro s hs
  unfold updSession at hs
  simp only at hs
  rcases List.mem_map.mp hs with ⟨s0, hs0, rfl⟩
  by_cases h0 : s0.id = sid
  · rw [if_pos h0, hf]
    exact hfresh s0 hs0
  · rw [if_neg h0]
    exact hfresh s0 hs0

/-- The session row created by `sessStartNew`. -/
theorem findSessionRow_sessStartNew_self (st : Store) (a m : String)
    (acc : List (Nat × List RawEvent)) (e : RawEvent)
    (hfresh : ∀ s ∈ st.sessions, s.id < st.nextSessionId) :
    findSessionRow (sessStartNew st a m acc e).st st.nextSessionId
      = some { id := st.nextSessionId, actorIdHash := a, machineIdHash := m,
               sessionHint := e.sessionHint, ciDetected := e.ciDetected,
               startedAt := e.timestamp, endedAt := none, eventCount := 0 } := by
  unfold sessStartNew sessAttach
  show (st.sessions ++ [_]).find? _ = _
  exact find?_key_append_fresh (fun s => s.id) st.sessions
    { id := st.nextSessionId, actorIdHash := a, machineIdHash := m,
      sessionHint := e.sessionHint, ciDetected := e.ciDetected,
      startedAt := e.timestamp, endedAt := none, eventCount := 0 }
    (fun y hy => Nat.ne_of_lt (hfresh y hy))

/-- `sessStartNew` does not disturb other session rows. -/
theorem findSessionRow_sessStartNew_ne (st : Store) (a m : String)
    (acc : List (Nat × List RawEvent)) (e : RawEvent) (sid : Nat)
    (hne : sid ≠ st.nextSessionId) :
    findSessionRow (sessStartNew st a m acc e).st sid = findSessionRow st sid := by
  unfold sessStartNew sessAttach
  show (st.sessions ++ [_]).find? _ = _
  exact find?_key_append_ne (fun s => s.id) st.sessions
    { id := st.nextSessionId, actorIdHash := a, machineIdHash := m,
      sessionHint := e.sessionHint, ciDetected := e.ciDetected,
      startedAt := e.timestamp, endedAt := none, eventCount := 0 }
    sid (fun h => hne h.symm)

/-- Freshness carries over `sessStartNew`. -/
theorem sessStartNew_fresh (st : Store) (a m : String)
    (acc : List (Nat × List RawEvent)) (e : RawEvent)
    (hfresh : ∀ s ∈ st.sessions, s.id < st.nextSessionId) :
    ∀ s ∈ (sessStartNew st a m acc e).st.sessions,
      s.id < (sessStartNew st a m acc e).st.nextSessionId := by
  intro s hs
  unfold sessStartNew sessAttach at hs ⊢
  simp only at hs ⊢
  rcases List.mem_append.mp hs with hs | hs
  · exact Nat.lt_succ_of_lt (hfresh s hs)
  · rcases List.mem_singleton.mp hs with rfl
    exact Nat.lt_succ_self _

theorem curMatches_sessAttach (st : Store) (sid : Nat) (curEvs : List RawEvent)
    (acc : List (Nat × List RawEvent)) (e : RawEvent) (srow : SessionRow)
    (hfind : findSessionRow st sid = some srow)
    (hhint : srow.sessionHint = e.sessionHint)
    (hci : srow.ciDetected = e.ciDetected) :
    CurMatches (sessAttach st sid curEvs acc e) e sid := by
  refine ⟨rfl, ?_, srow, ?_, hhint, hci⟩
  · show (curEvs ++ [{ e with sessionId := some sid }]).getLast? = _
    exact List.getLast?_concat _
  · exact hfind

theorem sessInv_sessAttach (st : Store) (sid : Nat) (curEvs : List RawEvent)
    (acc : List (Nat × List RawEvent)) (e : RawEvent) (srow : SessionRow)
    (hfind : findSessionRow st sid = some srow)
    (hfresh : ∀ s ∈ st.sessions, s.id < st.nextSessionId) :
    SessInv (sessAttach st sid curEvs acc e) := by
  refine ⟨hfresh, ?_⟩
  intro sid2 hsid2
  cases hsid2
  exact ⟨srow, hfind⟩

theorem curMatches_sessStartNew (st : Store) (a m : String)
    (acc : List (Nat × List RawEvent)) (e : RawEvent)
    (hfresh : ∀ s ∈ st.sessions, s.id < st.nextSessionId) :
    CurMatches (sessStartNew st a m acc e) e st.nextSessionId := by
  refine ⟨rfl, ?_, _, findSessionRow_sessStartNew_self st a m acc e hfresh, rfl, rfl⟩
  show ([] ++ [{ e with sessionId := some st.nextSessionId }]).getLast? = _
  exact List.getLast?_concat _

theorem sessInv_sessStartNew (st : Store) (a m : String)
    (acc : List (Nat × List RawEvent)) (e : RawEvent)
    (hfresh : ∀ s ∈ st.sessions, s.id < st.nextSessionId) :
    SessInv (sessStartNew st a m acc e) := by
  refine ⟨sessStartNew_fresh st a m acc e hfresh, ?_⟩
  intro sid2 hsid2
  cases hsid2
  exact ⟨_, findSessionRow_sessStartNew_self st a m acc e hfresh⟩

/-- After processing any event from any invariant-respecting state, the
walk carries a current session matching that event; the event's stored
row is stamped with that session and no other row is touched. -/
theorem sessStep_establishes (T : Int) (a m : String) (exS : Option Nat)
    (σ : SessState) (e : RawEvent) (hinv : SessInv σ) :
    ∃ sid2,
      CurMatches (sessStep T a m exS σ e) e sid2
        ∧ SessInv (sessStep T a m exS σ e)
        ∧ eventRow (sessStep T a m exS σ e).st e.id
            = (eventRow σ.st e.id).map (fun r => { r with sessionId := some sid2 })
        ∧ (∀ eid, eid ≠ e.id →
            eventRow (sessStep T a m exS σ e).st eid = eventRow σ.st eid)
        ∧ σ.st.nextSessionId ≤ (sessStep T a m exS σ e).st.nextSessionId := by
  obtain ⟨hfresh, hcurok⟩ := hinv
  unfold sessStep
  cases hc : σ.cur with
  | none =>
    cases exS with
    | none =>
      dsimp only
      exact ⟨σ.st.nextSessionId,
        curMatches_sessStartNew σ.st a m σ.acc e hfresh,
        sessInv_sessStartNew σ.st a m σ.acc e hfresh,
        eventRow_sessStartNew_self σ.st a m σ.acc e,
        fun eid hne => eventRow_sessStartNew_ne σ.st a m σ.acc e eid hne,
        Nat.le_succ _⟩
    | some exId =>
      dsimp only
      cases hfind : findSessionRow σ.st exId with
      | none =>
        exact ⟨σ.st.nextSessionId,
          curMatches_sessStartNew σ.st a m σ.acc e hfresh,
          sessInv_sessStartNew σ.st a m σ.acc e hfresh,
          eventRow_sessStartNew_self σ.st a m σ.acc e,
          fun eid hne => eventRow_sessStartNew_ne σ.st a m σ.acc e eid hne,
          Nat.le_succ _⟩
      | some esess =>
        dsimp only
        split
        · -- hard boundary against the stored open session: close it, start new
          have hfresh1 : ∀ s ∈ (updSession σ.st exId
              (fun s => { s with endedAt := some (lastEventTime σ.st exId esess.startedAt) })).sessions,
              s.id < (updSession σ.st exId
                (fun s => { s with endedAt := some (lastEventTime σ.st exId esess.startedAt) })).nextSessionId :=
            updSession_fresh σ.st exId _ (fun _ => rfl) hfresh
          exact ⟨σ.st.nextSessionId,
            curMatches_sessStartNew _ a m σ.acc e hfresh1,
            sessInv_sessStartNew _ a m σ.acc e hfresh1,
            eventRow_sessStartNew_self _ a m σ.acc e,
            fun eid hne => eventRow_sessStartNew_ne _ a m σ.acc e eid hne,
            Nat.le_succ _⟩
        · -- continue the stored open session
          next hB =>
          rw [Bool.not_eq_true] at hB
          have hB2 := hB
          simp only [Bool.or_eq_false_iff, decide_eq_false_iff_not, not_not,
            Decidable.not_not] at hB2
          exact ⟨exId,
            curMatches_sessAttach σ.st exId [] σ.acc e esess hfind hB2.1.1 hB2.1.2,
            sessInv_sessAttach σ.st exId [] σ.acc e esess hfind hfresh,
            eventRow_sessAttach_self σ.st exId [] σ.acc e,
            fun eid hne => eventRow_sessAttach_ne σ.st exId [] σ.acc e eid hne,
            Nat.le_refl _⟩
  | some sid =>
    dsimp only
    cases hfind : findSessionRow σ.st sid with
    | none =>
      rcases hcurok sid hc with ⟨srow, hsrow⟩
      rw [hfind] at hsrow
      exact Option.noConfusion hsrow
    | some csess =>
      dsimp only
      cases hlast : σ.curEvs.getLast? with
      | none =>
        dsimp only
        split
        · -- hard boundary with an empty buffer: nothing to close, start new
          exact ⟨σ.st.nextSessionId,
            curMatches_sessStartNew σ.st a m (addAcc σ.acc sid σ.curEvs) e hfresh,
            sessInv_sessStartNew σ.st a m (addAcc σ.acc sid σ.curEvs) e hfresh,
            eventRow_sessStartNew_self σ.st a m (addAcc σ.acc sid σ.curEvs) e,
            fun eid hne =>
              eventRow_sessStartNew_ne σ.st a m (addAcc σ.acc sid σ.curEvs) e eid hne,
            Nat.le_succ _⟩
        · -- continue the current session
          next hB =>
          rw [Bool.not_eq_true] at hB
          have hB2 := hB
          simp only [Bool.or_eq_false_iff, decide_eq_false_iff_not, not_not,
            Decidable.not_not] at hB2
          exact ⟨sid,
            curMatches_sessAttach σ.st sid σ.curEvs σ.acc e csess hfind hB2.1.1 hB2.1.2,
            sessInv_sessAttach σ.st sid σ.curEvs σ.acc e csess hfind hfresh,
            eventRow_sessAttach_self σ.st sid σ.curEvs σ.acc e,
            fun eid hne => eventRow_sessAttach_ne σ.st sid σ.curEvs σ.acc e eid hne,
            Nat.le_refl _⟩
      | some lastE =>
        dsimp only
        split
        · -- hard boundary: close the current session, start new
          have hfresh1 := updSession_fresh σ.st sid
            (fun s => { s with endedAt := some lastE.timestamp,
                               eventCount := s.eventCount + σ.curEvs.length })
            (fun _ => rfl) hfresh
          exact ⟨_,
            curMatches_sessStartNew _ a m (addAcc σ.acc sid σ.curEvs) e hfresh1,
            sessInv_sessStartNew _ a m (addAcc σ.acc sid σ.curEvs) e hfresh1,
            eventRow_sessStartNew_self _ a m (addAcc σ.acc sid σ.curEvs) e,
            fun eid hne =>
              eventRow_sessStartNew_ne _ a m (addAcc σ.acc sid σ.curEvs) e eid hne,
            Nat.le_succ _⟩
        · -- continue the current session
          next hB =>
          rw [Bool.not_eq_true] at hB
          have hB2 := hB
          simp only [Bool.or_eq_false_iff, decide_eq_false_iff_not, not_not,
            Decidable.not_not] at hB2
          exact ⟨sid,
            curMatches_sessAttach σ.st sid σ.curEvs σ.acc e csess hfind hB2.1.1 hB2.1.2,
            sessInv_sessAttach σ.st sid σ.curEvs σ.acc e csess hfind hfresh,
            eventRow_sessAttach_self σ.st sid σ.curEvs σ.acc e,
            fun eid hne => eventRow_sessAttach_ne σ.st sid σ.curEvs σ.acc e eid hne,
            Nat.le_refl _⟩

/-- Processing the next event `e2` while the current session matches the
previous event `e1`: the walk continues the same session exactly when
`sessBoundary T e1 e2` is false; otherwise it opens a fresh session for
`e2` and closes the old one at `e1`'s timestamp. -/
theorem sessStep_pair (T : Int) (a m : String) (exS : Option Nat)
    (σ : SessState) (e1 e2 : RawEvent) (sid1 : Nat)
    (hinv : SessInv σ) (hcur : CurMatches σ e1 sid1) :
    (sessBoundary T e1 e2 = false →
        (sessStep T a m exS σ e2).cur = some sid1
          ∧ eventRow (sessStep T a m exS σ e2).st e2.id
              = (eventRow σ.st e2.id).map (fun r => { r with sessionId := some sid1 })
          ∧ (sessStep T a m exS σ e2).st.nextSessionId = σ.st.nextSessionId
          ∧ (∀ sid2, findSessionRow (sessStep T a m exS σ e2).st sid2
              = findSessionRow σ.st sid2))
      ∧ (sessBoundary T e1 e2 = true →
          (sessStep T a m exS σ e2).cur = some σ.st.nextSessionId
            ∧ sid1 ≠ σ.st.nextSessionId
            ∧ eventRow (sessStep T a m exS σ e2).st e2.id
                = (eventRow σ.st e2.id).map
                    (fun r => { r with sessionId := some σ.st.nextSessionId })
            ∧ (∃ srow2, findSessionRow (sessStep T a m exS σ e2).st sid1 = some srow2
                ∧ srow2.endedAt = some e1.timestamp)
            ∧ sid1 < (sessStep T a m exS σ e2).st.nextSessionId) := by
  obtain ⟨hfreshI, hcurok⟩ := hinv
  obtain ⟨hc, hlastEv, srow, hfind, hhint, hci⟩ := hcur
  have hmem : srow ∈ σ.st.sessions := List.mem_of_find?_eq_some hfind
  have hsid : srow.id = sid1 := by
    have := List.find?_some hfind
    simpa using this
  have hlt : sid1 < σ.st.nextSessionId := hsid ▸ hfreshI srow hmem
  unfold sessStep
  rw [hc]
  dsimp only
  rw [hlastEv, hfind]
  dsimp only
  rw [hhint, hci]
  constructor
  · intro hB
    have hB2 : (decide (e1.sessionHint ≠ e2.sessionHint)
        || decide (e1.ciDetected ≠ e2.ciDetected)
        || decide (T < e2.timestamp
            - (RawEvent.timestamp { e1 with sessionId := some sid1 }))) = false := hB
    simp only [hB2, Bool.false_eq_true, if_false]
    exact ⟨rfl, eventRow_sessAttach_self σ.st sid1 σ.curEvs σ.acc e2, rfl,
      fun sid2 => rfl⟩
  · intro hB
    have hB2 : (decide (e1.sessionHint ≠ e2.sessionHint)
        || decide (e1.ciDetected ≠ e2.ciDetected)
        || decide (T < e2.timestamp
            - (RawEvent.timestamp { e1 with sessionId := some sid1 }))) = true := hB
    simp only [hB2, if_true]
    refine ⟨rfl, Nat.ne_of_lt hlt, ?_, ?_, ?_⟩
    · exact eventRow_sessStartNew_self _ a m (addAcc σ.acc sid1 σ.curEvs) e2
    · refine ⟨{ srow with
          endedAt := some e1.timestamp,
          eventCount := srow.eventCount + σ.curEvs.length }, ?_, rfl⟩
      rw [findSessionRow_sessStartNew_ne
        (updSession σ.st sid1 (fun s =>
          { s with endedAt := some e1.timestamp,
                   eventCount := s.eventCount + σ.curEvs.length }))
        a m (addAcc σ.acc sid1 σ.curEvs) e2 sid1 (Nat.ne_of_lt hlt)]
      rw [findSessionRow_updSession_self σ.st sid1
        (fun s => { s with endedAt := some e1.timestamp,
                           eventCount := s.eventCount + σ.curEvs.length })
        (fun _ => rfl), hfind]
      rfl
    · exact Nat.lt_succ_of_lt hlt

theorem sessRun_append (T : Int) (a m : String) (exS : Option Nat)
    (l1 l2 : List RawEvent) : ∀ σ : SessState,
    sessRun T a m exS σ (l1 ++ l2) = sessRun T a m exS (sessRun T a m exS σ l1) l2 := by
  induction l1 with
  | nil => intro σ; rfl
  | cons e l1 ih => intro σ; exact ih (sessStep T a m exS σ e)

/-- Running the walk preserves the invariant and the autoincrement
bound. -/
theorem sessRun_inv (T : Int) (a m : String) (exS : Option Nat)
    (l : List RawEvent) : ∀ σ : SessState, SessInv σ →
    SessInv (sessRun T a m exS σ l)
      ∧ σ.st.nextSessionId ≤ (sessRun T a m exS σ l).st.nextSessionId := by
  induction l with
  | nil => intro σ hinv; exact ⟨hinv, Nat.le_refl _⟩
  | cons e l ih =>
    intro σ hinv
    rcases sessStep_establishes T a m exS σ e hinv with ⟨sid2, _, hinv2, _, _, hmono⟩
    rcases ih (sessStep T a m exS σ e) hinv2 with ⟨hinv3, hmono2⟩
    exact ⟨hinv3, Nat.le_trans hmono hmono2⟩

/-- Event rows whose ids do not occur in the remaining list are left
alone by the walk. -/
theorem sessRun_event_frame (T : Int) (a m : String) (exS : Option Nat)
    (l : List RawEvent) : ∀ (σ : SessState) (eid : Nat), SessInv σ →
    eid ∉ l.map (fun e => e.id) →
    eventRow (sessRun T a m exS σ l).st eid = eventRow σ.st eid := by
  induction l with
  | nil => intro σ eid _ _; rfl
  | cons e l ih =>
    intro σ eid hinv hmem
    simp only [List.map_cons, List.mem_cons, not_or] at hmem
    rcases sessStep_establishes T a m exS σ e hinv with ⟨sid2, _, hinv2, _, hframe, _⟩
    have hr : sessRun T a m exS σ (e :: l)
        = sessRun T a m exS (sessStep T a m exS σ e) l := rfl
    rw [hr, ih (sessStep T a m exS σ e) eid hinv2 (by simpa using hmem.2)]
    exact hframe eid hmem.1

/-- One step never touches a session row that is neither current nor yet
allocated, and the current session stays clear of it. -/
theorem sessStep_session_frame (T : Int) (a m : String) (exS : Option Nat)
    (σ : SessState) (e : RawEvent) (sid c : Nat)
    (hc : σ.cur = some c) (hne : c ≠ sid) (hlt : sid < σ.st.nextSessionId) :
    findSessionRow (sessStep T a m exS σ e).st sid = findSessionRow σ.st sid
      ∧ ∃ c2, (sessStep T a m exS σ e).cur = some c2 ∧ c2 ≠ sid
        ∧ sid < (sessStep T a m exS σ e).st.nextSessionId := by
  unfold sessStep
  rw [hc]
  dsimp only
  cases hfind : findSessionRow σ.st c with
  | none => exact ⟨rfl, c, rfl, hne, hlt⟩
  | some csess =>
    dsimp only
    cases hlast : σ.curEvs.getLast? with
    | none =>
      dsimp only
      split
      · refine ⟨?_, σ.st.nextSessionId, rfl, Nat.ne_of_lt hlt |>.symm, Nat.lt_succ_of_lt hlt⟩
        exact findSessionRow_sessStartNew_ne σ.st a m (addAcc σ.acc c σ.curEvs) e sid
          (Nat.ne_of_lt hlt)
      · exact ⟨rfl, c, rfl, hne, hlt⟩
    | some lastE =>
      dsimp only
      split
      · refine ⟨?_, σ.st.nextSessionId, rfl, Nat.ne_of_lt hlt |>.symm, Nat.lt_succ_of_lt hlt⟩
        rw [findSessionRow_sessStartNew_ne
          (updSession σ.st c (fun s =>
            { s with endedAt := some lastE.timestamp,
                     eventCount := s.eventCount + σ.curEvs.length }))
          a m (addAcc σ.acc c σ.curEvs) e sid (Nat.ne_of_lt hlt)]
        exact findSessionRow_updSession_ne σ.st c sid _ (fun _ => rfl) (fun h => hne h.symm)
      · exact ⟨rfl, c, rfl, hne, hlt⟩

/-- A closed session row survives the rest of the walk untouched. -/
theorem sessRun_session_frame (T : Int) (a m : String) (exS : Option Nat)
    (l : List RawEvent) : ∀ (σ : SessState) (sid c : Nat),
    σ.cur = some c → c ≠ sid → sid < σ.st.nextSessionId →
    findSessionRow (sessRun T a m exS σ l).st sid = findSessionRow σ.st sid
      ∧ ∃ c2, (sessRun T a m exS σ l).cur = some c2 ∧ c2 ≠ sid
        ∧ sid < (sessRun T a m exS σ l).st.nextSessionId := by
  induction l with
  | nil => intro σ sid c hc hne hlt; exact ⟨rfl, c, hc, hne, hlt⟩
  | cons e l ih =>
    intro σ sid c hc hne hlt
    rcases sessStep_session_frame T a m exS σ e sid c hc hne hlt with
      ⟨hkeep, c2, hc2, hne2, hlt2⟩
    rcases ih (sessStep T a m exS σ e) sid c2 hc2 hne2 hlt2 with
      ⟨hkeep2, c3, hc3, hne3, hlt3⟩
    exact ⟨hkeep2.trans hkeep, c3, hc3, hne3, hlt3⟩

/-- Finalization never touches raw events, and touches only the current
session's row. -/
theorem sessFinalize_events (σ : SessState) :
    (sessFinalize σ).1.events = σ.st.events := by
  unfold sessFinalize
  cases σ.cur with
  | none => rfl
  | some sid =>
    by_cases he : σ.curEvs.isEmpty
    · simp [he]
    · simp [he, updSession]

theorem sessFinalize_session_frame (σ : SessState) (sid c : Nat)
    (hc : σ.cur = some c) (hne : c ≠ sid) :
    findSessionRow (sessFinalize σ).1 sid = findSessionRow σ.st sid := by
  unfold sessFinalize
  rw [hc]
  dsimp only
  by_cases he : σ.curEvs.isEmpty
  · simp [he]
  · simp only [he, Bool.false_eq_true, if_false]
    exact findSessionRow_updSession_ne σ.st c sid _ (fun _ => rfl) (fun h => hne h.symm)

theorem eventRow_sessFinalize (σ : SessState) (eid : Nat) :
    eventRow (sessFinalize σ).1 eid = eventRow σ.st eid := by
  unfold eventRow
  rw [sessFinalize_events]

/-- C2: during one inference run, for two timestamp-consecutive events
`e1`, `e2` of the same (actor hash, machine hash) partition — a current
session exists whenever `e2` is processed — the walk assigns `e2` to the
same session as `e1` if and only if their session hints are equal, their
CI flags are equal, and the gap is at most the timeout `T`; otherwise a
new session begins for `e2` and `e1`'s session is closed with `ended_at`
set to `e1`'s timestamp. -/
theorem c2_session_boundary (T : Int) (st : Store) (a m : String)
    (pre suf : List RawEvent) (e1 e2 : RawEvent)
    (hch : (pre ++ e1 :: e2 :: suf).Chain' (fun x y => x.timestamp ≤ y.timestamp))
    (hnd : ((pre ++ e1 :: e2 :: suf).map (fun e => e.id)).Nodup)
    (hfresh : ∀ s ∈ st.sessions, s.id < st.nextSessionId)
    (hrow1 : eventRow st e1.id = some e1)
    (hrow2 : eventRow st e2.id = some e2) :
    ∃ sid1 sid2 : Nat,
      assignedSidStore (walkGroup T st [] a m (pre ++ e1 :: e2 :: suf)).1 e1.id
          = some sid1
        ∧ assignedSidStore (walkGroup T st [] a m (pre ++ e1 :: e2 :: suf)).1 e2.id
            = some sid2
        ∧ (sid1 = sid2 ↔
            (e1.sessionHint = e2.sessionHint ∧ e1.ciDetected = e2.ciDetected
              ∧ e2.timestamp - e1.timestamp ≤ T))
        ∧ (¬(e1.sessionHint = e2.sessionHint ∧ e1.ciDetected = e2.ciDetected
              ∧ e2.timestamp - e1.timestamp ≤ T) →
            ∃ srow, findSessionRow (walkGroup T st [] a m (pre ++ e1 :: e2 :: suf)).1 sid1
                = some srow ∧ srow.endedAt = some e1.timestamp) := by
  rw [List.map_append, List.map_cons, List.map_cons, List.nodup_append] at hnd
  obtain ⟨hndA, hndB, hdisj⟩ := hnd
  rw [List.nodup_cons] at hndB
  obtain ⟨hn1, hndB2⟩ := hndB
  rw [List.nodup_cons] at hndB2
  obtain ⟨hn2, hndD⟩ := hndB2
  simp only [List.mem_cons, not_or] at hn1
  obtain ⟨h12, hsuf1⟩ := hn1
  have hsuf2 : e2.id ∉ List.map (fun e => e.id) suf := hn2
  have hpre1 : e1.id ∉ List.map (fun e => e.id) pre := by
    intro hmem
    exact (hdisj hmem) (by simp)
  have hpre2 : e2.id ∉ List.map (fun e => e.id) pre := by
    intro hmem
    exact (hdisj hmem) (by simp)
  have hinv0 : SessInv ⟨st, none, [], []⟩ :=
    ⟨hfresh, fun sid h => Option.noConfusion h⟩
  set exS := (findOpenSession st a m).map (fun s => s.id) with hexS
  have hwg : (walkGroup T st [] a m (pre ++ e1 :: e2 :: suf)).1
      = (sessFinalize (sessRun T a m exS ⟨st, none, [], []⟩ (pre ++ e1 :: e2 :: suf))).1 :=
    rfl
  have hsplit : sessRun T a m exS ⟨st, none, [], []⟩ (pre ++ e1 :: e2 :: suf)
      = sessRun T a m exS
          (sessStep T a m exS
            (sessStep T a m exS (sessRun T a m exS ⟨st, none, [], []⟩ pre) e1) e2) suf := by
    rw [sessRun_append]
    rfl
  obtain ⟨hinvP, hmonoP⟩ := sessRun_inv T a m exS pre ⟨st, none, [], []⟩ hinv0
  have hrow1p : eventRow (sessRun T a m exS ⟨st, none, [], []⟩ pre).st e1.id = some e1 :=
    (sessRun_event_frame T a m exS pre ⟨st, none, [], []⟩ e1.id hinv0 hpre1).trans hrow1
  have hrow2p : eventRow (sessRun T a m exS ⟨st, none, [], []⟩ pre).st e2.id = some e2 :=
    (sessRun_event_frame T a m exS pre ⟨st, none, [], []⟩ e2.id hinv0 hpre2).trans hrow2
  obtain ⟨sid1, hcur1, hinv1, hself1, hframe1, hmono1⟩ :=
    sessStep_establishes T a m exS (sessRun T a m exS ⟨st, none, [], []⟩ pre) e1 hinvP
  have hrow1q : eventRow (sessStep T a m exS
      (sessRun T a m exS ⟨st, none, [], []⟩ pre) e1).st e1.id
      = some { e1 with sessionId := some sid1 } := by
    rw [hself1, hrow1p]
    rfl
  have hrow2q : eventRow (sessStep T a m exS
      (sessRun T a m exS ⟨st, none, [], []⟩ pre) e1).st e2.id = some e2 :=
    (hframe1 e2.id (fun h => h12 h.symm)).trans hrow2p
  obtain ⟨hcontinue, hboundary⟩ :=
    sessStep_pair T a m exS
      (sessStep T a m exS (sessRun T a m exS ⟨st, none, [], []⟩ pre) e1) e1 e2 sid1
      hinv1 hcur1
  obtain ⟨sidX, hcurX, hinv2, hselfX, hframe2, hmono2⟩ :=
    sessStep_establishes T a m exS
      (sessStep T a m exS (sessRun T a m exS ⟨st, none, [], []⟩ pre) e1) e2 hinv1
  by_cases hB : sessBoundary T e1 e2 = true
  · -- boundary: fresh session for e2, e1's session closed at e1's timestamp
    obtain ⟨hc2, hne12, hself2, ⟨srow2, hclosed, hend⟩, hlt1⟩ := hboundary hB
    have hcond : ¬(e1.sessionHint = e2.sessionHint ∧ e1.ciDetected = e2.ciDetected
        ∧ e2.timestamp - e1.timestamp ≤ T) := by
      intro hcond
      rw [← sessBoundary_eq_false_iff T e1 e2] at hcond
      rw [hB] at hcond
      exact Bool.noConfusion hcond
    have hrow1r : eventRow (sessStep T a m exS (sessStep T a m exS
        (sessRun T a m exS ⟨st, none, [], []⟩ pre) e1) e2).st e1.id
        = some { e1 with sessionId := some sid1 } :=
      (hframe2 e1.id h12).trans hrow1q
    have hrow2r : eventRow (sessStep T a m exS (sessStep T a m exS
        (sessRun T a m exS ⟨st, none, [], []⟩ pre) e1) e2).st e2.id
        = some { e2 with sessionId := some (sessStep T a m exS
            (sessRun T a m exS ⟨st, none, [], []⟩ pre) e1).st.nextSessionId } := by
      rw [hself2, hrow2q]
      rfl
    have h1f := (sessRun_event_frame T a m exS suf _ e1.id hinv2 hsuf1).trans hrow1r
    have h2f := (sessRun_event_frame T a m exS suf _ e2.id hinv2 hsuf2).trans hrow2r
    obtain ⟨hkeepS, c3, hc3, hne3, hlt3⟩ :=
      sessRun_session_frame T a m exS suf _ sid1 _ hc2 (fun h => hne12 h.symm) hlt1
    refine ⟨sid1, (sessStep T a m exS
        (sessRun T a m exS ⟨st, none, [], []⟩ pre) e1).st.nextSessionId, ?_, ?_, ?_, ?_⟩
    · rw [hwg, hsplit]
      unfold assignedSidStore
      rw [eventRow_sessFinalize, h1f]
      rfl
    · rw [hwg, hsplit]
      unfold assignedSidStore
      rw [eventRow_sessFinalize, h2f]
      rfl
    · exact iff_of_false hne12 hcond
    · intro _
      refine ⟨srow2, ?_, hend⟩
      rw [hwg, hsplit]
      rw [sessFinalize_session_frame _ sid1 c3 hc3 hne3, hkeepS, hclosed]
  · -- no boundary: e2 continues e1's session
    rw [Bool.not_eq_true] at hB
    have hcond : e1.sessionHint = e2.sessionHint ∧ e1.ciDetected = e2.ciDetected
        ∧ e2.timestamp - e1.timestamp ≤ T :=
      (sessBoundary_eq_false_iff T e1 e2).mp hB
    obtain ⟨hc2, hself2, hnext2, hsessframe2⟩ := hcontinue hB
    have hrow1r : eventRow (sessStep T a m exS (sessStep T a m exS
        (sessRun T a m exS ⟨st, none, [], []⟩ pre) e1) e2).st e1.id
        = some { e1 with sessionId := some sid1 } :=
      (hframe2 e1.id h12).trans hrow1q
    have hrow2r : eventRow (sessStep T a m exS (sessStep T a m exS
        (sessRun T a m exS ⟨st, none, [], []⟩ pre) e1) e2).st e2.id
        = some { e2 with sessionId := some sid1 } := by
      rw [hself2, hrow2q]
      rfl
    have h1f := (sessRun_event_frame T a m exS suf _ e1.id hinv2 hsuf1).trans hrow1r
    have h2f := (sessRun_event_frame T a m exS suf _ e2.id hinv2 hsuf2).trans hrow2r
    refine ⟨sid1, sid1, ?_, ?_, iff_of_true rfl hcond, fun hn => absurd hcond hn⟩
    · rw [hwg, hsplit]
      unfold assignedSidStore
      rw [eventRow_sessFinalize, h1f]
      rfl
    · rw [hwg, hsplit]
      unfold assignedSidStore
      rw [eventRow_sessFinalize, h2f]
      rfl

/-- Two events of one actor/machine, 100 time units apart — past the
30-unit timeout, so the walk must split them into two sessions. -/
def c2Ev1 : RawEvent :=
  { id := 1, timestamp := 0, toolName := "git", commandPath := ["git", "add"],
    flagsPresent := [], exitCode := some 0, durationMs := none,
    actorIdHash := "a", machineIdHash := "m", sessionHint := none,
    ciDetected := false, sessionId := none, workflowRunId := none }

def c2Ev2 : RawEvent :=
  { c2Ev1 with
    id := 2, timestamp := 100 }

/-- A store holding just those two unassigned events. -/
def c2Store : Store :=
  { emptyStore with
    events := [c2Ev1, c2Ev2], nextEventId := 3 }

theorem c2_session_boundary_witness :
    ((([] : List RawEvent) ++ c2Ev1 :: c2Ev2 :: []).Chain'
        (fun x y => x.timestamp ≤ y.timestamp))
      ∧ (((([] : List RawEvent) ++ c2Ev1 :: c2Ev2 :: []).map (fun e => e.id)).Nodup)
      ∧ (∀ s ∈ c2Store.sessions, s.id < c2Store.nextSessionId)
      ∧ eventRow c2Store c2Ev1.id = some c2Ev1
      ∧ eventRow c2Store c2Ev2.id = some c2Ev2
      ∧ ∃ sid1 sid2 : Nat,
          assignedSidStore
              (walkGroup 30 c2Store [] "a" "m" (([] : List RawEvent) ++ c2Ev1 :: c2Ev2 :: [])).1 c2Ev1.id
              = some sid1
            ∧ assignedSidStore
                (walkGroup 30 c2Store [] "a" "m" (([] : List RawEvent) ++ c2Ev1 :: c2Ev2 :: [])).1 c2Ev2.id
                = some sid2
            ∧ (sid1 = sid2 ↔
                (c2Ev1.sessionHint = c2Ev2.sessionHint
                  ∧ c2Ev1.ciDetected = c2Ev2.ciDetected
                  ∧ c2Ev2.timestamp - c2Ev1.timestamp ≤ 30))
            ∧ (¬(c2Ev1.sessionHint = c2Ev2.sessionHint
                  ∧ c2Ev1.ciDetected = c2Ev2.ciDetected
                  ∧ c2Ev2.timestamp - c2Ev1.timestamp ≤ 30) →
                ∃ srow,
                  findSessionRow
                      (walkGroup 30 c2Store [] "a" "m" (([] : List RawEvent) ++ c2Ev1 :: c2Ev2 :: [])).1 sid1
                    = some srow ∧ srow.endedAt = some c2Ev1.timestamp) := by
  have h1 : (([] : List RawEvent) ++ c2Ev1 :: c2Ev2 :: []).Chain'
      (fun x y => x.timestamp ≤ y.timestamp) := by
    simp only [List.nil_append]
    exact List.chain'_cons.mpr ⟨by decide, List.chain'_singleton _⟩
  have h2 : (((([] : List RawEvent) ++ c2Ev1 :: c2Ev2 :: []).map (fun e => e.id)).Nodup) := by
    decide
  have h3 : ∀ s ∈ c2Store.sessions, s.id < c2Store.nextSessionId := by decide
  have h4 : eventRow c2Store c2Ev1.id = some c2Ev1 := by decide
  have h5 : eventRow c2Store c2Ev2.id = some c2Ev2 := by decide
  exact ⟨h1, h2, h3, h4, h5,
    c2_session_boundary 30 c2Store "a" "m" [] [] c2Ev1 c2Ev2 h1 h2 h3 h4 h5⟩

/-! ## C4 development: inference invariants over reachable stores

The invariant (`storeInv`) is proved by induction over `ReachableStore`.
The inference run is decomposed into two row-transformation stages: the
sessionization stage overwrites `session_id` on exactly the batch's ids
(`sessRel`), the workflow stage overwrites `workflow_run_id` on exactly
the ids collected into the `session_events` dict (`wfRel`), and the two
id sets are proved equal (both are the batch's ids).
-/

theorem le_foldl_max (l : List Nat) : ∀ a : Nat, a ≤ l.foldl Nat.max a := by
  induction l with
  | nil => intro a; exact Nat.le_refl a
  | cons y ys ih =>
    intro a
    exact le_trans (Nat.le_max_left a y) (ih (Nat.max a y))

theorem foldl_max_le (l : List Nat) : ∀ a x : Nat, x ∈ l → x ≤ l.foldl Nat.max a := by
  induction l with
  | nil =>
    intro a x hx
    cases hx
  | cons y ys ih =>
    intro a x hx
    rcases List.mem_cons.mp hx with rfl | hx
    · exact le_trans (Nat.le_max_right a x) (le_foldl_max ys (Nat.max a x))
    · exact ih (Nat.max a y) x hx

theorem foldl_max_mem_or (l : List Nat) : ∀ a : Nat,
    l.foldl Nat.max a ∈ l ∨ l.foldl Nat.max a = a := by
  induction l with
  | nil => exact fun a => Or.inr rfl
  | cons y ys ih =>
    intro a
    rcases ih (Nat.max a y) with h | h
    · exact Or.inl (List.mem_cons_of_mem y h)
    · rw [List.foldl_cons, h]
      rcases Nat.le_total a y with hm | hm
      · have hy : Nat.max a y = y := Nat.max_eq_right hm
        rw [hy]
        exact Or.inl (List.mem_cons_self y ys)
      · have ha : Nat.max a y = a := Nat.max_eq_left hm
        rw [ha]
        exact Or.inr rfl

theorem mem_insertBy {α : Type} (lt : α → α → Bool) (x a : α) (l : List α) :
    a ∈ insertBy lt x l ↔ a = x ∨ a ∈ l := by
  induction l with
  | nil => simp [insertBy]
  | cons y ys ih =>
    unfold insertBy
    by_cases hlt : lt x y
    · rw [if_pos hlt]
      simp [List.mem_cons]
    · rw [if_neg hlt]
      simp only [List.mem_cons, ih]
      tauto

theorem mem_sortBy {α : Type} (lt : α → α → Bool) (a : α) (l : List α) :
    a ∈ sortBy lt l ↔ a ∈ l := by
  have key : ∀ (l acc : List α),
      a ∈ l.foldl (fun acc x => insertBy lt x acc) acc ↔ a ∈ acc ∨ a ∈ l := by
    intro l
    induction l with
    | nil =>
      intro acc
      simp
    | cons y ys ih =>
      intro acc
      rw [List.foldl_cons, ih, mem_insertBy]
      simp only [List.mem_cons]
      tauto
  rw [sortBy, key]
  simp

theorem mem_sortByKey {α : Type} (key : α → Int) (a : α) (l : List α) :
    a ∈ sortByKey key l ↔ a ∈ l :=
  mem_sortBy _ a l

theorem forall2_mem_left {α β : Type} {R : α → β → Prop} {l : List α} {m : List β}
    (h : List.Forall₂ R l m) (a : α) (ha : a ∈ l) : ∃ b ∈ m, R a b := by
  induction h with
  | nil => cases ha
  | cons hr _ ih =>
    rcases List.mem_cons.mp ha with rfl | ha
    · exact ⟨_, List.mem_cons_self _ _, hr⟩
    · obtain ⟨b, hb, hrb⟩ := ih ha
      exact ⟨b, List.mem_cons_of_mem _ hb, hrb⟩

theorem forall2_mem_right {α β : Type} {R : α → β → Prop} {l : List α} {m : List β}
    (h : List.Forall₂ R l m) (b : β) (hb : b ∈ m) : ∃ a ∈ l, R a b := by
  induction h with
  | nil => cases hb
  | cons hr _ ih =>
    rcases List.mem_cons.mp hb with rfl | hb
    · exact ⟨_, List.mem_cons_self _ _, hr⟩
    · obtain ⟨a, ha, hra⟩ := ih hb
      exact ⟨a, List.mem_cons_of_mem _ ha, hra⟩

/-- Stage-one row relation: `session_id` overwritten on exactly the ids
in `ids`, every other row untouched. -/
def sessRel (ids : List Nat) (r r' : RawEvent) : Prop :=
  (r.id ∉ ids → r' = r) ∧ (r.id ∈ ids → ∃ sid, r' = { r with sessionId := some sid })

/-- Stage-two row relation: `workflow_run_id` overwritten on exactly the
ids in `ids`. -/
def wfRel (ids : List Nat) (r r' : RawEvent) : Prop :=
  (r.id ∉ ids → r' = r) ∧ (r.id ∈ ids → ∃ w, r' = { r with workflowRunId := some w })

theorem sessRel_id {ids : List Nat} {r r' : RawEvent} (h : sessRel ids r r') :
    r'.id = r.id := by
  by_cases hm : r.id ∈ ids
  · obtain ⟨sid, rfl⟩ := h.2 hm
    rfl
  · rw [h.1 hm]

theorem wfRel_id {ids : List Nat} {r r' : RawEvent} (h : wfRel ids r r') :
    r'.id = r.id := by
  by_cases hm : r.id ∈ ids
  · obtain ⟨w, rfl⟩ := h.2 hm
    rfl
  · rw [h.1 hm]

theorem forall2_sessRel_refl (l : List RawEvent) :
    List.Forall₂ (sessRel []) l l := by
  induction l with
  | nil => exact List.Forall₂.nil
  | cons r rs ih =>
    exact List.Forall₂.cons ⟨fun _ => rfl, fun h => absurd h (List.not_mem_nil _)⟩ ih

theorem forall2_wfRel_refl (l : List RawEvent) :
    List.Forall₂ (wfRel []) l l := by
  induction l with
  | nil => exact List.Forall₂.nil
  | cons r rs ih =>
    exact List.Forall₂.cons ⟨fun _ => rfl, fun h => absurd h (List.not_mem_nil _)⟩ ih

theorem forall2_sessRel_congr {A B : List Nat} (hAB : ∀ x, x ∈ A ↔ x ∈ B)
    {l m : List RawEvent} (h : List.Forall₂ (sessRel A) l m) :
    List.Forall₂ (sessRel B) l m :=
  h.imp (fun a b hr => ⟨fun hn => hr.1 (fun hm => hn ((hAB _).mp hm)),
    fun hm => hr.2 ((hAB _).mpr hm)⟩)

theorem forall2_wfRel_congr {A B : List Nat} (hAB : ∀ x, x ∈ A ↔ x ∈ B)
    {l m : List RawEvent} (h : List.Forall₂ (wfRel A) l m) :
    List.Forall₂ (wfRel B) l m :=
  h.imp (fun a b hr => ⟨fun hn => hr.1 (fun hm => hn ((hAB _).mp hm)),
    fun hm => hr.2 ((hAB _).mpr hm)⟩)

theorem sessRel_comp {A B : List Nat} {r r' r'' : RawEvent}
    (h1 : sessRel A r r') (h2 : sessRel B r' r'') : sessRel (A ++ B) r r'' := by
  have hid : r'.id = r.id := sessRel_id h1
  constructor
  · intro hn
    rw [List.mem_append] at hn
    push_neg at hn
    rw [h2.1 (by rw [hid]; exact hn.2), h1.1 hn.1]
  · intro hm
    by_cases hB : r.id ∈ B
    · obtain ⟨sid2, h⟩ := h2.2 (by rw [hid]; exact hB)
      by_cases hA : r.id ∈ A
      · obtain ⟨sid1, h1e⟩ := h1.2 hA
        subst h1e
        exact ⟨sid2, h.trans rfl⟩
      · rw [h1.1 hA] at h
        exact ⟨sid2, h⟩
    · have hA : r.id ∈ A := by
        rcases List.mem_append.mp hm with h | h
        · exact h
        · exact absurd h hB
      obtain ⟨sid1, h1e⟩ := h1.2 hA
      rw [h2.1 (by rw [hid]; exact hB), h1e]
      exact ⟨sid1, rfl⟩

theorem wfRel_comp {A B : List Nat} {r r' r'' : RawEvent}
    (h1 : wfRel A r r') (h2 : wfRel B r' r'') : wfRel (A ++ B) r r'' := by
  have hid : r'.id = r.id := wfRel_id h1
  constructor
  · intro hn
    rw [List.mem_append] at hn
    push_neg at hn
    rw [h2.1 (by rw [hid]; exact hn.2), h1.1 hn.1]
  · intro hm
    by_cases hB : r.id ∈ B
    · obtain ⟨w2, h⟩ := h2.2 (by rw [hid]; exact hB)
      by_cases hA : r.id ∈ A
      · obtain ⟨w1, h1e⟩ := h1.2 hA
        subst h1e
        exact ⟨w2, h.trans rfl⟩
      · rw [h1.1 hA] at h
        exact ⟨w2, h⟩
    · have hA : r.id ∈ A := by
        rcases List.mem_append.mp hm with h | h
        · exact h
        · exact absurd h hB
      obtain ⟨w1, h1e⟩ := h1.2 hA
      rw [h2.1 (by rw [hid]; exact hB), h1e]
      exact ⟨w1, rfl⟩

theorem forall2_sessRel_comp {A B : List Nat} {l m n : List RawEvent}
    (h1 : List.Forall₂ (sessRel A) l m) (h2 : List.Forall₂ (sessRel B) m n) :
    List.Forall₂ (sessRel (A ++ B)) l n := by
  induction h1 generalizing n with
  | nil =>
    cases h2
    exact List.Forall₂.nil
  | cons hr hrest ih =>
    cases h2 with
    | cons hr2 hrest2 =>
      exact List.Forall₂.cons (sessRel_comp hr hr2) (ih hrest2)

theorem forall2_wfRel_comp {A B : List Nat} {l m n : List RawEvent}
    (h1 : List.Forall₂ (wfRel A) l m) (h2 : List.Forall₂ (wfRel B) m n) :
    List.Forall₂ (wfRel (A ++ B)) l n := by
  induction h1 generalizing n with
  | nil =>
    cases h2
    exact List.Forall₂.nil
  | cons hr hrest ih =>
    cases h2 with
    | cons hr2 hrest2 =>
      exact List.Forall₂.cons (wfRel_comp hr hr2) (ih hrest2)

/-- The event ids collected in the `session_events` dict. -/
def flatAccIds : List (Nat × List RawEvent) → List Nat
  | [] => []
  | p :: rest => p.2.map (fun e => e.id) ++ flatAccIds rest

theorem mem_flatAccIds_addAcc (acc : List (Nat × List RawEvent)) (sid : Nat)
    (evs : List RawEvent) (x : Nat) :
    x ∈ flatAccIds (addAcc acc sid evs)
      ↔ x ∈ flatAccIds acc ∨ x ∈ evs.map (fun e => e.id) := by
  unfold addAcc
  by_cases hany : acc.any (fun p => p.1 = sid)
  · rw [if_pos hany]
    have key : ∀ a : List (Nat × List RawEvent),
        x ∈ flatAccIds (a.map (fun p => if p.1 = sid then (p.1, p.2 ++ evs) else p))
          ↔ x ∈ flatAccIds a
            ∨ ((a.any (fun p => p.1 = sid)) = true ∧ x ∈ evs.map (fun e => e.id)) := by
      intro a
      induction a with
      | nil => simp [flatAccIds]
      | cons q rest ih =>
        by_cases hq : q.1 = sid
        · rw [List.map_cons, if_pos hq]
          simp only [flatAccIds, List.map_append, List.mem_append, ih, List.any_cons,
            Bool.or_eq_true, decide_eq_true_eq, hq, eq_self_iff_true, true_or, true_and]
          tauto
        · rw [List.map_cons, if_neg hq]
          simp only [flatAccIds, List.mem_append, ih, List.any_cons,
            Bool.or_eq_true, decide_eq_true_eq, hq, false_or]
          tauto
    rw [key acc, ]
    simp only [hany, true_and]
  · rw [if_neg hany]
    have happ : ∀ a b : List (Nat × List RawEvent),
        flatAccIds (a ++ b) = flatAccIds a ++ flatAccIds b := by
      intro a b
      induction a with
      | nil => simp [flatAccIds]
      | cons q rest ih => simp [flatAccIds, ih]
    rw [happ]
    simp [flatAccIds]

/-- `updEvent` as a pointwise relation: the single-id stage-one update. -/
theorem forall2_sessRel_map_upd (l : List RawEvent) (eid sid : Nat) :
    List.Forall₂ (sessRel [eid]) l
      (l.map (fun r => if r.id = eid then { r with sessionId := some sid } else r)) := by
  induction l with
  | nil => exact List.Forall₂.nil
  | cons r rs ih =>
    refine List.Forall₂.cons ⟨?_, ?_⟩ ih
    · intro hn
      dsimp only
      rw [if_neg (by simpa using hn)]
    · intro hm
      dsimp only
      rw [if_pos (by simpa using hm)]
      exact ⟨sid, rfl⟩

/-- One `workflow_run_id` stamping pass as a pointwise relation. -/
theorem forall2_wfRel_map_upd (l : List RawEvent) (eid wfId : Nat) :
    List.Forall₂ (wfRel [eid]) l
      (l.map (fun r => if r.id = eid then { r with workflowRunId := some wfId } else r)) := by
  induction l with
  | nil => exact List.Forall₂.nil
  | cons r rs ih =>
    refine List.Forall₂.cons ⟨?_, ?_⟩ ih
    · intro hn
      dsimp only
      rw [if_neg (by simpa using hn)]
    · intro hm
      dsimp only
      rw [if_pos (by simpa using hm)]
      exact ⟨wfId, rfl⟩

theorem sessAttach_effects (st : Store) (sid : Nat) (curEvs : List RawEvent)
    (acc : List (Nat × List RawEvent)) (e : RawEvent) :
    (sessAttach st sid curEvs acc e).st.events
        = st.events.map (fun r => if r.id = e.id then { r with sessionId := some sid } else r)
      ∧ (sessAttach st sid curEvs acc e).st.workflows = st.workflows
      ∧ (sessAttach st sid curEvs acc e).st.steps = st.steps
      ∧ (sessAttach st sid curEvs acc e).st.nextWorkflowId = st.nextWorkflowId
      ∧ (sessAttach st sid curEvs acc e).st.nextEventId = st.nextEventId
      ∧ (sessAttach st sid curEvs acc e).st.cursorLastEventId = st.cursorLastEventId
      ∧ (sessAttach st sid curEvs acc e).cur = some sid
      ∧ (sessAttach st sid curEvs acc e).curEvs
          = curEvs ++ [{ e with sessionId := some sid }]
      ∧ (sessAttach st sid curEvs acc e).acc = acc :=
  ⟨rfl, rfl, rfl, rfl, rfl, rfl, rfl, rfl, rfl⟩

theorem sessStartNew_effects (st : Store) (a m : String)
    (acc : List (Nat × List RawEvent)) (e : RawEvent) :
    (sessStartNew st a m acc e).st.events
        = st.events.map (fun r =>
            if r.id = e.id then { r with sessionId := some st.nextSessionId } else r)
      ∧ (sessStartNew st a m acc e).st.workflows = st.workflows
      ∧ (sessStartNew st a m acc e).st.steps = st.steps
      ∧ (sessStartNew st a m acc e).st.nextWorkflowId = st.nextWorkflowId
      ∧ (sessStartNew st a m acc e).st.nextEventId = st.nextEventId
      ∧ (sessStartNew st a m acc e).st.cursorLastEventId = st.cursorLastEventId
      ∧ (sessStartNew st a m acc e).cur = some st.nextSessionId
      ∧ (sessStartNew st a m acc e).curEvs
          = [{ e with sessionId := some st.nextSessionId }]
      ∧ (sessStartNew st a m acc e).acc = acc :=
  ⟨rfl, rfl, rfl, rfl, rfl, rfl, rfl, rfl, rfl⟩

theorem updSession_frame (st : Store) (sid : Nat) (f : SessionRow → SessionRow) :
    (updSession st sid f).events = st.events
      ∧ (updSession st sid f).workflows = st.workflows
      ∧ (updSession st sid f).steps = st.steps
      ∧ (updSession st sid f).nextWorkflowId = st.nextWorkflowId
      ∧ (updSession st sid f).nextEventId = st.nextEventId
      ∧ (updSession st sid f).nextSessionId = st.nextSessionId
      ∧ (updSession st sid f).cursorLastEventId = st.cursorLastEventId :=
  ⟨rfl, rfl, rfl, rfl, rfl, rfl, rfl⟩

/-- One sessionization step: `session_id` is overwritten (to some value)
on exactly the processed event's id, sessions aside nothing else of the
store moves, and the pool of buffered/collected ids grows by exactly that
id.  The loop state always has a current session afterwards. -/
theorem sessStep_effects (T : Int) (a m : String) (exS : Option Nat) (σ : SessState)
    (e : RawEvent) (hemp : σ.cur = none → σ.curEvs = []) :
    ∃ sid : Nat,
      (sessStep T a m exS σ e).st.events
          = σ.st.events.map (fun r =>
              if r.id = e.id then { r with sessionId := some sid } else r)
        ∧ (sessStep T a m exS σ e).st.workflows = σ.st.workflows
        ∧ (sessStep T a m exS σ e).st.steps = σ.st.steps
        ∧ (sessStep T a m exS σ e).st.nextWorkflowId = σ.st.nextWorkflowId
        ∧ (sessStep T a m exS σ e).st.nextEventId = σ.st.nextEventId
        ∧ (sessStep T a m exS σ e).st.cursorLastEventId = σ.st.cursorLastEventId
        ∧ (∀ x, (x ∈ flatAccIds (sessStep T a m exS σ e).acc
                ∨ x ∈ (sessStep T a m exS σ e).curEvs.map (fun r => r.id))
            ↔ (x ∈ flatAccIds σ.acc ∨ x ∈ σ.curEvs.map (fun r => r.id) ∨ x = e.id))
        ∧ ((sessStep T a m exS σ e).cur = none → (sessStep T a m exS σ e).curEvs = []) := by
  unfold sessStep
  cases hc : σ.cur with
  | none =>
    have hce : σ.curEvs = [] := hemp hc
    dsimp only
    cases exS with
    | none =>
      obtain ⟨h1, h2, h3, h4, h5, h6, h7, h8, h9⟩ := sessStartNew_effects σ.st a m σ.acc e
      refine ⟨σ.st.nextSessionId, h1, h2, h3, h4, h5, h6, ?_, ?_⟩
      · intro x
        rw [h8, h9, hce]
        simp
      · rw [h7]
        intro h
        exact absurd h (by simp)
    | some exId =>
      dsimp only
      cases hrow : findSessionRow σ.st exId with
      | none =>
        dsimp only
        obtain ⟨h1, h2, h3, h4, h5, h6, h7, h8, h9⟩ := sessStartNew_effects σ.st a m σ.acc e
        refine ⟨σ.st.nextSessionId, h1, h2, h3, h4, h5, h6, ?_, ?_⟩
        · intro x
          rw [h8, h9, hce]
          simp
        · rw [h7]
          intro h
          exact absurd h (by simp)
      | some esess =>
        dsimp only
        by_cases hB : (esess.sessionHint ≠ e.sessionHint || esess.ciDetected ≠ e.ciDetected
            || T < e.timestamp - lastEventTime σ.st exId esess.startedAt) = true
        · rw [if_pos hB]
          obtain ⟨h1, h2, h3, h4, h5, h6, h7, h8, h9⟩ :=
            sessStartNew_effects
              (updSession σ.st exId (fun s =>
                { s with endedAt := some (lastEventTime σ.st exId esess.startedAt) }))
              a m σ.acc e
          obtain ⟨f1, f2, f3, f4, f5, f6, f7⟩ :=
            updSession_frame σ.st exId (fun s =>
              { s with endedAt := some (lastEventTime σ.st exId esess.startedAt) })
          rw [f6, f1] at h1
          refine ⟨σ.st.nextSessionId, h1, h2.trans f2, h3.trans f3, h4.trans f4,
            h5.trans f5, h6.trans f7, ?_, ?_⟩
          · intro x
            rw [h8, h9, hce, f6]
            simp
          · rw [h7]
            intro h
            exact absurd h (by simp)
        · rw [if_neg hB]
          obtain ⟨h1, h2, h3, h4, h5, h6, h7, h8, h9⟩ :=
            sessAttach_effects σ.st exId [] σ.acc e
          refine ⟨exId, h1, h2, h3, h4, h5, h6, ?_, ?_⟩
          · intro x
            rw [h8, h9, hce]
            simp
          · rw [h7]
            intro h
            exact absurd h (by simp)
  | some sid0 =>
    dsimp only
    cases hrow : findSessionRow σ.st sid0 with
    | none =>
      dsimp only
      obtain ⟨h1, h2, h3, h4, h5, h6, h7, h8, h9⟩ :=
        sessAttach_effects σ.st sid0 σ.curEvs σ.acc e
      refine ⟨sid0, h1, h2, h3, h4, h5, h6, ?_, ?_⟩
      · intro x
        rw [h8, h9]
        simp only [List.map_append, List.mem_append, List.map_cons, List.map_nil,
          List.mem_cons, List.not_mem_nil, or_false]
      · rw [h7]
        intro h
        exact absurd h (by simp)
    | some csess =>
      dsimp only
      by_cases hB : (csess.sessionHint ≠ e.sessionHint || csess.ciDetected ≠ e.ciDetected
          || T < (match σ.curEvs.getLast? with
                  | some lastE => e.timestamp - lastE.timestamp
                  | none => 0)) = true
      · rw [if_pos hB]
        cases hlast : σ.curEvs.getLast? with
        | none =>
          dsimp only
          obtain ⟨h1, h2, h3, h4, h5, h6, h7, h8, h9⟩ :=
            sessStartNew_effects σ.st a m (addAcc σ.acc sid0 σ.curEvs) e
          have hce : σ.curEvs = [] := List.getLast?_eq_none_iff.mp hlast
          refine ⟨σ.st.nextSessionId, h1, h2, h3, h4, h5, h6, ?_, ?_⟩
          · intro x
            rw [h8, h9, hce]
            simp only [mem_flatAccIds_addAcc, List.map_nil, List.not_mem_nil, or_false,
              List.map_cons, List.mem_cons]
            tauto
          · rw [h7]
            intro h
            exact absurd h (by simp)
        | some lastE =>
          dsimp only
          obtain ⟨h1, h2, h3, h4, h5, h6, h7, h8, h9⟩ :=
            sessStartNew_effects
              (updSession σ.st sid0 (fun s =>
                { s with endedAt := some lastE.timestamp,
                         eventCount := s.eventCount + σ.curEvs.length }))
              a m (addAcc σ.acc sid0 σ.curEvs) e
          obtain ⟨f1, f2, f3, f4, f5, f6, f7⟩ :=
            updSession_frame σ.st sid0 (fun s =>
              { s with endedAt := some lastE.timestamp,
                       eventCount := s.eventCount + σ.curEvs.length })
          rw [f6, f1] at h1
          refine ⟨σ.st.nextSessionId, h1, h2.trans f2, h3.trans f3, h4.trans f4,
            h5.trans f5, h6.trans f7, ?_, ?_⟩
          · intro x
            rw [h8, h9, f6]
            simp only [mem_flatAccIds_addAcc, List.map_cons, List.map_nil,
              List.mem_cons, List.not_mem_nil, or_false]
            tauto
          · rw [h7]
            intro h
            exact absurd h (by simp)
      · rw [if_neg hB]
        obtain ⟨h1, h2, h3, h4, h5, h6, h7, h8, h9⟩ :=
          sessAttach_effects σ.st sid0 σ.curEvs σ.acc e
        refine ⟨sid0, h1, h2, h3, h4, h5, h6, ?_, ?_⟩
        · intro x
          rw [h8, h9]
          simp only [List.map_append, List.mem_append, List.map_cons, List.map_nil,
            List.mem_cons, List.not_mem_nil, or_false]
        · rw [h7]
          intro h
          exact absurd h (by simp)

set_option maxHeartbeats 2000000 in
theorem sessRun_effects (T : Int) (a m : String) (exS : Option Nat) :
    ∀ (l : List RawEvent) (σ : SessState), (σ.cur = none → σ.curEvs = []) →
      List.Forall₂ (sessRel (l.map (fun e => e.id))) σ.st.events
          (sessRun T a m exS σ l).st.events
        ∧ (sessRun T a m exS σ l).st.workflows = σ.st.workflows
        ∧ (sessRun T a m exS σ l).st.steps = σ.st.steps
        ∧ (sessRun T a m exS σ l).st.nextWorkflowId = σ.st.nextWorkflowId
        ∧ (sessRun T a m exS σ l).st.nextEventId = σ.st.nextEventId
        ∧ (sessRun T a m exS σ l).st.cursorLastEventId = σ.st.cursorLastEventId
        ∧ (∀ x, (x ∈ flatAccIds (sessRun T a m exS σ l).acc
                ∨ x ∈ (sessRun T a m exS σ l).curEvs.map (fun r => r.id))
            ↔ (x ∈ flatAccIds σ.acc ∨ x ∈ σ.curEvs.map (fun r => r.id)
                ∨ x ∈ l.map (fun e => e.id)))
        ∧ ((sessRun T a m exS σ l).cur = none → (sessRun T a m exS σ l).curEvs = []) := by
  intro l
  induction l with
  | nil =>
    intro σ hemp
    refine ⟨forall2_sessRel_refl _, rfl, rfl, rfl, rfl, rfl, ?_, hemp⟩
    intro x
    have h0 : sessRun T a m exS σ [] = σ := rfl
    rw [h0]
    simp
  | cons e rest ih =>
    intro σ hemp
    have hr : sessRun T a m exS σ (e :: rest)
        = sessRun T a m exS (sessStep T a m exS σ e) rest := rfl
    obtain ⟨sid, hev, hw, hs, hnw, hne, hcu, hids, hemp'⟩ :=
      sessStep_effects T a m exS σ e hemp
    obtain ⟨ihF, ihw, ihs, ihnw, ihne, ihcu, ihids, ihemp⟩ :=
      ih (sessStep T a m exS σ e) hemp'
    have hstep : List.Forall₂ (sessRel [e.id]) σ.st.events
        (sessStep T a m exS σ e).st.events := by
      rw [hev]
      exact forall2_sessRel_map_upd σ.st.events e.id sid
    refine ⟨?_, ?_, ?_, ?_, ?_, ?_, ?_, ?_⟩
    · rw [hr]
      have := forall2_sessRel_comp hstep ihF
      simpa using this
    · rw [hr, ihw, hw]
    · rw [hr, ihs, hs]
    · rw [hr, ihnw, hnw]
    · rw [hr, ihne, hne]
    · rw [hr, ihcu, hcu]
    · intro x
      rw [hr, ihids x]
      have h2 := hids x
      simp only [List.map_cons, List.mem_cons]
      tauto
    · rw [hr]
      exact ihemp

theorem sessFinalize_frames (σ : SessState) :
    (sessFinalize σ).1.events = σ.st.events
      ∧ (sessFinalize σ).1.workflows = σ.st.workflows
      ∧ (sessFinalize σ).1.steps = σ.st.steps
      ∧ (sessFinalize σ).1.nextWorkflowId = σ.st.nextWorkflowId
      ∧ (sessFinalize σ).1.nextEventId = σ.st.nextEventId
      ∧ (sessFinalize σ).1.cursorLastEventId = σ.st.cursorLastEventId := by
  unfold sessFinalize
  cases σ.cur with
  | none => exact ⟨rfl, rfl, rfl, rfl, rfl, rfl⟩
  | some sid =>
    dsimp only
    by_cases hE : σ.curEvs.isEmpty
    · rw [if_pos hE]
      exact ⟨rfl, rfl, rfl, rfl, rfl, rfl⟩
    · rw [if_neg hE]
      exact ⟨rfl, rfl, rfl, rfl, rfl, rfl⟩

theorem mem_flatAccIds_sessFinalize (σ : SessState)
    (hemp : σ.cur = none → σ.curEvs = []) (x : Nat) :
    x ∈ flatAccIds (sessFinalize σ).2
      ↔ x ∈ flatAccIds σ.acc ∨ x ∈ σ.curEvs.map (fun r => r.id) := by
  unfold sessFinalize
  cases hc : σ.cur with
  | none =>
    rw [hemp hc]
    simp
  | some sid =>
    dsimp only
    by_cases hE : σ.curEvs.isEmpty
    · rw [if_pos hE]
      rw [List.isEmpty_iff.mp hE]
      simp
    · rw [if_neg hE]
      exact mem_flatAccIds_addAcc σ.acc sid σ.curEvs x

theorem walkGroup_effects (T : Int) (st : Store) (acc : List (Nat × List RawEvent))
    (a m : String) (g : List RawEvent) :
    List.Forall₂ (sessRel (g.map (fun e => e.id))) st.events
        (walkGroup T st acc a m g).1.events
      ∧ (walkGroup T st acc a m g).1.workflows = st.workflows
      ∧ (walkGroup T st acc a m g).1.steps = st.steps
      ∧ (walkGroup T st acc a m g).1.nextWorkflowId = st.nextWorkflowId
      ∧ (walkGroup T st acc a m g).1.nextEventId = st.nextEventId
      ∧ (walkGroup T st acc a m g).1.cursorLastEventId = st.cursorLastEventId
      ∧ (∀ x, x ∈ flatAccIds (walkGroup T st acc a m g).2
          ↔ x ∈ flatAccIds acc ∨ x ∈ g.map (fun e => e.id)) := by
  unfold walkGroup
  obtain ⟨hF, hw, hs, hnw, hne, hcu, hids, hemp⟩ :=
    sessRun_effects T a m ((findOpenSession st a m).map (fun s => s.id)) g
      ⟨st, none, [], acc⟩ (fun _ => rfl)
  obtain ⟨f1, f2, f3, f4, f5, f6⟩ :=
    sessFinalize_frames (sessRun T a m ((findOpenSession st a m).map (fun s => s.id))
      ⟨st, none, [], acc⟩ g)
  refine ⟨?_, ?_, ?_, ?_, ?_, ?_, ?_⟩
  · rw [f1]
    exact hF
  · rw [f2, hw]
  · rw [f3, hs]
  · rw [f4, hnw]
  · rw [f5, hne]
  · rw [f6, hcu]
  · intro x
    rw [mem_flatAccIds_sessFinalize _ hemp x, hids x]
    simp

theorem mem_groupKeys_aux (l : List RawEvent) :
    ∀ (ks : List (String × String)) (k : String × String),
      (k ∈ ks ∨ ∃ e ∈ l, k = (e.actorIdHash, e.machineIdHash)) →
      k ∈ l.foldl
          (fun ks e =>
            let k := (e.actorIdHash, e.machineIdHash)
            if ks.contains k then ks else ks ++ [k]) ks := by
  induction l with
  | nil =>
    intro ks k h
    rcases h with h | ⟨e, he, _⟩
    · exact h
    · cases he
  | cons e rest ih =>
    intro ks k h
    rw [List.foldl_cons]
    apply ih
    rcases h with hks | ⟨f, hf, hk⟩
    · left
      dsimp only
      by_cases hc : ks.contains (e.actorIdHash, e.machineIdHash)
      · rw [if_pos hc]
        exact hks
      · rw [if_neg hc]
        exact List.mem_append_left _ hks
    · rcases List.mem_cons.mp hf with rfl | hf
      · left
        dsimp only
        by_cases hc : ks.contains (f.actorIdHash, f.machineIdHash)
        · rw [if_pos hc, hk]
          exact List.mem_of_elem_eq_true hc
        · rw [if_neg hc, hk]
          exact List.mem_append_right _ (by simp)
      · right
        exact ⟨f, hf, hk⟩

theorem mem_groupKeys (events : List RawEvent) (e : RawEvent) (he : e ∈ events) :
    (e.actorIdHash, e.machineIdHash) ∈ groupKeys events :=
  mem_groupKeys_aux events [] _ (Or.inr ⟨e, he, rfl⟩)

theorem sessionize_fold_effects (T : Int) (events : List RawEvent) :
    ∀ (ks : List (String × String)) (st0 : Store) (acc0 : List (Nat × List RawEvent)),
      ∃ A : List Nat,
        List.Forall₂ (sessRel A) st0.events
            (ks.foldl
              (fun p k =>
                walkGroup T p.1 p.2 k.1 k.2
                  (sortByKey (fun e => e.timestamp)
                    (events.filter (fun e =>
                      e.actorIdHash = k.1 && e.machineIdHash = k.2))))
              (st0, acc0)).1.events
          ∧ (ks.foldl
              (fun p k =>
                walkGroup T p.1 p.2 k.1 k.2
                  (sortByKey (fun e => e.timestamp)
                    (events.filter (fun e =>
                      e.actorIdHash = k.1 && e.machineIdHash = k.2))))
              (st0, acc0)).1.workflows = st0.workflows
          ∧ (ks.foldl
              (fun p k =>
                walkGroup T p.1 p.2 k.1 k.2
                  (sortByKey (fun e => e.timestamp)
                    (events.filter (fun e =>
                      e.actorIdHash = k.1 && e.machineIdHash = k.2))))
              (st0, acc0)).1.steps = st0.steps
          ∧ (ks.foldl
              (fun p k =>
                walkGroup T p.1 p.2 k.1 k.2
                  (sortByKey (fun e => e.timestamp)
                    (events.filter (fun e =>
                      e.actorIdHash = k.1 && e.machineIdHash = k.2))))
              (st0, acc0)).1.nextWorkflowId = st0.nextWorkflowId
          ∧ (ks.foldl
              (fun p k =>
                walkGroup T p.1 p.2 k.1 k.2
                  (sortByKey (fun e => e.timestamp)
                    (events.filter (fun e =>
                      e.actorIdHash = k.1 && e.machineIdHash = k.2))))
              (st0, acc0)).1.nextEventId = st0.nextEventId
          ∧ (ks.foldl
              (fun p k =>
                walkGroup T p.1 p.2 k.1 k.2
                  (sortByKey (fun e => e.timestamp)
                    (events.filter (fun e =>
                      e.actorIdHash = k.1 && e.machineIdHash = k.2))))
              (st0, acc0)).1.cursorLastEventId = st0.cursorLastEventId
          ∧ (∀ x, x ∈ flatAccIds
                (ks.foldl
                  (fun p k =>
                    walkGroup T p.1 p.2 k.1 k.2
                      (sortByKey (fun e => e.timestamp)
                        (events.filter (fun e =>
                          e.actorIdHash = k.1 && e.machineIdHash = k.2))))
                  (st0, acc0)).2
              ↔ x ∈ flatAccIds acc0 ∨ x ∈ A)
          ∧ (∀ x, x ∈ A ↔ ∃ k ∈ ks,
              x ∈ (sortByKey (fun e => e.timestamp)
                  (events.filter (fun e =>
                    e.actorIdHash = k.1 && e.machineIdHash = k.2))).map
                (fun e => e.id)) := by
  intro ks
  induction ks with
  | nil =>
    intro st0 acc0
    refine ⟨[], forall2_sessRel_refl _, rfl, rfl, rfl, rfl, rfl, ?_, ?_⟩
    · intro x
      simp
    · intro x
      simp
  | cons k ks ih =>
    intro st0 acc0
    obtain ⟨hF1, hw1, hs1, hnw1, hne1, hcu1, hacc1⟩ :=
      walkGroup_effects T st0 acc0 k.1 k.2
        (sortByKey (fun e => e.timestamp)
          (events.filter (fun e => e.actorIdHash = k.1 && e.machineIdHash = k.2)))
    obtain ⟨A2, hF2, hw2, hs2, hnw2, hne2, hcu2, hacc2, hA2⟩ :=
      ih (walkGroup T st0 acc0 k.1 k.2
        (sortByKey (fun e => e.timestamp)
          (events.filter (fun e => e.actorIdHash = k.1 && e.machineIdHash = k.2)))).1
        (walkGroup T st0 acc0 k.1 k.2
          (sortByKey (fun e => e.timestamp)
            (events.filter (fun e => e.actorIdHash = k.1 && e.machineIdHash = k.2)))).2
    refine ⟨(sortByKey (fun e => e.timestamp)
        (events.filter (fun e => e.actorIdHash = k.1 && e.machineIdHash = k.2))).map
          (fun e => e.id) ++ A2, ?_, ?_, ?_, ?_, ?_, ?_, ?_, ?_⟩
    · rw [List.foldl_cons]
      exact forall2_sessRel_comp hF1 hF2
    · rw [List.foldl_cons, hw2, hw1]
    · rw [List.foldl_cons, hs2, hs1]
    · rw [List.foldl_cons, hnw2, hnw1]
    · rw [List.foldl_cons, hne2, hne1]
    · rw [List.foldl_cons, hcu2, hcu1]
    · intro x
      rw [List.foldl_cons, hacc2 x]
      have h1 := hacc1 x
      rw [List.mem_append]
      tauto
    · intro x
      rw [List.mem_append, hA2 x]
      constructor
      · intro h
        rcases h with h | ⟨k2, hk2, hx⟩
        · exact ⟨k, List.mem_cons_self k ks, h⟩
        · exact ⟨k2, List.mem_cons_of_mem k hk2, hx⟩
      · intro ⟨k2, hk2, hx⟩
        rcases List.mem_cons.mp hk2 with rfl | hk2
        · exact Or.inl hx
        · exact Or.inr ⟨k2, hk2, hx⟩

theorem sessionize_events_effects (T : Int) (st : Store) (events : List RawEvent) :
    ∃ A : List Nat,
      List.Forall₂ (sessRel A) st.events (sessionize_events T st events).1.events
        ∧ (sessionize_events T st events).1.workflows = st.workflows
        ∧ (sessionize_events T st events).1.steps = st.steps
        ∧ (sessionize_events T st events).1.nextWorkflowId = st.nextWorkflowId
        ∧ (sessionize_events T st events).1.nextEventId = st.nextEventId
        ∧ (sessionize_events T st events).1.cursorLastEventId = st.cursorLastEventId
        ∧ (∀ x, x ∈ flatAccIds (sessionize_events T st events).2 ↔ x ∈ A)
        ∧ (∀ x, x ∈ A ↔ x ∈ events.map (fun e => e.id)) := by
  obtain ⟨A, hF, hw, hs, hnw, hne, hcu, hacc, hA⟩ :=
    sessionize_fold_effects T events (groupKeys events) st []
  have heq : sessionize_events T st events
      = (groupKeys events).foldl
          (fun p k =>
            walkGroup T p.1 p.2 k.1 k.2
              (sortByKey (fun e => e.timestamp)
                (events.filter (fun e =>
                  e.actorIdHash = k.1 && e.machineIdHash = k.2))))
          (st, []) := rfl
  refine ⟨A, ?_, ?_, ?_, ?_, ?_, ?_, ?_, ?_⟩
  · rw [heq]
    exact hF
  · rw [heq, hw]
  · rw [heq, hs]
  · rw [heq, hnw]
  · rw [heq, hne]
  · rw [heq, hcu]
  · intro x
    rw [heq, hacc x]
    simp [flatAccIds]
  · intro x
    rw [hA x]
    constructor
    · intro ⟨k, _, hx⟩
      rw [List.mem_map] at hx ⊢
      obtain ⟨e, he, hid⟩ := hx
      rw [mem_sortByKey] at he
      exact ⟨e, (List.mem_filter.mp he).1, hid⟩
    · intro hx
      rw [List.mem_map] at hx
      obtain ⟨e, he, hid⟩ := hx
      refine ⟨(e.actorIdHash, e.machineIdHash), mem_groupKeys events e he, ?_⟩
      rw [List.mem_map]
      refine ⟨e, ?_, hid⟩
      rw [mem_sortByKey]
      exact List.mem_filter.mpr ⟨he, by simp⟩

theorem setWorkflowIds_forall2 : ∀ (ids : List Nat) (evts : List RawEvent) (wfId : Nat),
    List.Forall₂ (wfRel ids) evts (setWorkflowIds evts ids wfId) := by
  intro ids
  induction ids with
  | nil =>
    intro evts wfId
    exact forall2_wfRel_refl evts
  | cons eid rest ih =>
    intro evts wfId
    have h0 : setWorkflowIds evts (eid :: rest) wfId
        = setWorkflowIds
            (evts.map (fun r =>
              if r.id = eid then { r with workflowRunId := some wfId } else r))
            rest wfId := rfl
    rw [h0]
    have hcomp := forall2_wfRel_comp (forall2_wfRel_map_upd evts eid wfId)
      (ih (evts.map (fun r =>
        if r.id = eid then { r with workflowRunId := some wfId } else r)) wfId)
    simpa using hcomp

/-- The workflow-side invariant carried through inference: workflow ids
and step back-pointers stay below the autoincrement counter, and each
workflow's steps carry `step_order` exactly `0..n-1` in order. -/
def WfInv (st : Store) : Prop :=
  (∀ w ∈ st.workflows, w.id < st.nextWorkflowId)
    ∧ (∀ s ∈ st.steps, s.workflowRunId < st.nextWorkflowId)
    ∧ (∀ w ∈ st.workflows,
        (st.steps.filter (fun s => s.workflowRunId = w.id)).map (fun s => s.stepOrder)
          = List.range ((st.steps.filter (fun s => s.workflowRunId = w.id)).length))

theorem mkStepRows_wfid (wfId : Nat) (l : List RawEvent) :
    ∀ s ∈ mkStepRows wfId l, s.workflowRunId = wfId := by
  intro s hs
  rw [mkStepRows] at hs
  obtain ⟨p, _, rfl⟩ := List.mem_map.mp hs
  rfl

theorem mkStepRows_orders (wfId : Nat) (l : List RawEvent) :
    (mkStepRows wfId l).map (fun s => s.stepOrder) = List.range l.length := by
  rw [mkStepRows, List.map_map]
  exact List.enum_map_fst l

theorem mkStepRows_length (wfId : Nat) (l : List RawEvent) :
    (mkStepRows wfId l).length = l.length := by
  simp [mkStepRows]

theorem create_workflow_wfRel (st : Store) (sid : Nat) (evs : List RawEvent)
    (flag : Bool) :
    List.Forall₂ (wfRel (evs.map (fun e => e.id))) st.events
      (create_workflow st sid evs flag).1.events := by
  cases evs with
  | nil => exact forall2_wfRel_refl _
  | cons h t =>
    have h0 : (create_workflow st sid (h :: t) flag).1.events
        = setWorkflowIds st.events ((h :: t).map (fun e => e.id)) st.nextWorkflowId :=
      rfl
    rw [h0]
    exact setWorkflowIds_forall2 _ _ _

theorem create_workflow_wfInv (st : Store) (sid : Nat) (evs : List RawEvent)
    (flag : Bool) (hInv : WfInv st) : WfInv (create_workflow st sid evs flag).1 := by
  cases evs with
  | nil => exact hInv
  | cons h t =>
    obtain ⟨hA1, hA2, hG4⟩ := hInv
    have hwfl : (create_workflow st sid (h :: t) flag).1.workflows
        = st.workflows ++ [mkWorkflowRow st.nextWorkflowId sid h t flag] := rfl
    have hstp : (create_workflow st sid (h :: t) flag).1.steps
        = st.steps ++ mkStepRows st.nextWorkflowId (h :: t) := rfl
    have hnw : (create_workflow st sid (h :: t) flag).1.nextWorkflowId
        = st.nextWorkflowId + 1 := rfl
    refine ⟨?_, ?_, ?_⟩
    · intro w hw
      rw [hwfl] at hw
      rw [hnw]
      rcases List.mem_append.mp hw with hw | hw
      · exact Nat.lt_trans (hA1 w hw) (Nat.lt_succ_self _)
      · have : w = mkWorkflowRow st.nextWorkflowId sid h t flag := by simpa using hw
        rw [this]
        exact Nat.lt_succ_self _
    · intro s hs
      rw [hstp] at hs
      rw [hnw]
      rcases List.mem_append.mp hs with hs | hs
      · exact Nat.lt_trans (hA2 s hs) (Nat.lt_succ_self _)
      · rw [mkStepRows_wfid st.nextWorkflowId (h :: t) s hs]
        exact Nat.lt_succ_self _
    · intro w hw
      rw [hwfl] at hw
      rw [hstp, List.filter_append]
      rcases List.mem_append.mp hw with hw | hw
      · have hnil : (mkStepRows st.nextWorkflowId (h :: t)).filter
            (fun s => s.workflowRunId = w.id) = [] := by
          rw [List.filter_eq_nil_iff]
          intro s hs
          rw [mkStepRows_wfid st.nextWorkflowId (h :: t) s hs]
          simp only [decide_eq_true_eq]
          exact fun hEq => absurd hEq.symm (Nat.ne_of_lt (hA1 w hw))
        rw [hnil, List.append_nil]
        exact hG4 w hw
      · have hw' : w = mkWorkflowRow st.nextWorkflowId sid h t flag := by simpa using hw
        have hwid : w.id = st.nextWorkflowId := by rw [hw']; rfl
        have hnil : st.steps.filter (fun s => s.workflowRunId = w.id) = [] := by
          rw [List.filter_eq_nil_iff]
          intro s hs
          rw [hwid]
          simp only [decide_eq_true_eq]
          exact Nat.ne_of_lt (hA2 s hs)
        have hall : (mkStepRows st.nextWorkflowId (h :: t)).filter
            (fun s => s.workflowRunId = w.id) = mkStepRows st.nextWorkflowId (h :: t) := by
          rw [List.filter_eq_self]
          intro s hs
          rw [mkStepRows_wfid st.nextWorkflowId (h :: t) s hs, hwid]
          simp
        rw [hnil, hall, List.nil_append, mkStepRows_orders, mkStepRows_length]

theorem applyChunks_effects (sid : Nat) (cs : List (List RawEvent)) :
    ∀ st : Store, WfInv st →
      List.Forall₂ (wfRel (cs.flatten.map (fun e => e.id))) st.events
          (applyChunks sid st cs).events
        ∧ WfInv (applyChunks sid st cs) := by
  induction cs with
  | nil =>
    intro st hInv
    exact ⟨forall2_wfRel_refl _, hInv⟩
  | cons c cs ih =>
    intro st hInv
    have h0 : applyChunks sid st (c :: cs)
        = applyChunks sid
            (create_workflow st sid c (if cs.isEmpty then trailingFlag c else false)).1
            cs := rfl
    rw [h0]
    obtain ⟨ihF, ihInv⟩ :=
      ih (create_workflow st sid c (if cs.isEmpty then trailingFlag c else false)).1
        (create_workflow_wfInv st sid c _ hInv)
    refine ⟨?_, ihInv⟩
    have hcomp := forall2_wfRel_comp
      (create_workflow_wfRel st sid c (if cs.isEmpty then trailingFlag c else false)) ihF
    have hids : ∀ x, x ∈ c.map (fun e => e.id) ++ cs.flatten.map (fun e => e.id)
        ↔ x ∈ ((c :: cs).flatten.map (fun e => e.id)) := by
      intro x
      simp
    exact forall2_wfRel_congr hids hcomp

theorem infer_session_workflows_effects (T : Int) (st : Store) (sid : Nat)
    (evs : List RawEvent) (hInv : WfInv st) :
    List.Forall₂ (wfRel (evs.map (fun e => e.id))) st.events
        (infer_session_workflows T st sid evs).events
      ∧ WfInv (infer_session_workflows T st sid evs) := by
  unfold infer_session_workflows
  by_cases hE : evs.isEmpty
  · rw [if_pos hE, List.isEmpty_iff.mp hE]
    exact ⟨forall2_wfRel_refl _, hInv⟩
  · rw [if_neg hE]
    have hne : evs ≠ [] := fun h => hE (by rw [h]; rfl)
    cases hs : sortByKey (fun e => e.timestamp) evs with
    | nil =>
      exfalso
      obtain ⟨e, he⟩ := List.exists_mem_of_ne_nil evs hne
      have := (mem_sortByKey (fun e => e.timestamp) e evs).mpr he
      rw [hs] at this
      cases this
    | cons e rest =>
      have h0 : wfWalk T sid st [] (e :: rest) = wfWalk T sid st [e] rest := rfl
      rw [h0, wfWalk_eq_applyChunks T sid rest st [e] (by simp)]
      obtain ⟨hF, hInv'⟩ :=
        applyChunks_effects sid (chunksGo (wfBoundary T) [e] rest) st hInv
      refine ⟨?_, hInv'⟩
      have hflat := chunksGo_flatten (wfBoundary T) rest [e]
      rw [hflat] at hF
      have hids : ∀ x, x ∈ ([e] ++ rest).map (fun e => e.id)
          ↔ x ∈ evs.map (fun e => e.id) := by
        intro x
        constructor
        · intro hx
          rw [List.mem_map] at hx ⊢
          obtain ⟨f, hf, hid⟩ := hx
          have : f ∈ sortByKey (fun e => e.timestamp) evs := by
            rw [hs]
            simpa using hf
          rw [mem_sortByKey] at this
          exact ⟨f, this, hid⟩
        · intro hx
          rw [List.mem_map] at hx ⊢
          obtain ⟨f, hf, hid⟩ := hx
          have : f ∈ sortByKey (fun e => e.timestamp) evs :=
            (mem_sortByKey (fun e => e.timestamp) f evs).mpr hf
          rw [hs] at this
          exact ⟨f, by simpa using this, hid⟩
      exact forall2_wfRel_congr hids hF

theorem infer_workflows_effects (T : Int) (acc : List (Nat × List RawEvent)) :
    ∀ st : Store, WfInv st →
      List.Forall₂ (wfRel (flatAccIds acc)) st.events (infer_workflows T st acc).events
        ∧ WfInv (infer_workflows T st acc) := by
  induction acc with
  | nil =>
    intro st hInv
    exact ⟨forall2_wfRel_refl _, hInv⟩
  | cons p rest ih =>
    intro st hInv
    have h0 : infer_workflows T st (p :: rest)
        = infer_workflows T (infer_session_workflows T st p.1 p.2) rest := rfl
    rw [h0]
    obtain ⟨hF1, hInv1⟩ := infer_session_workflows_effects T st p.1 p.2 hInv
    obtain ⟨hF2, hInv2⟩ := ih (infer_session_workflows T st p.1 p.2) hInv1
    refine ⟨?_, hInv2⟩
    have hcomp := forall2_wfRel_comp hF1 hF2
    have hids : ∀ x, x ∈ p.2.map (fun e => e.id) ++ flatAccIds rest
        ↔ x ∈ flatAccIds (p :: rest) := by
      intro x
      exact Iff.rfl
    exact forall2_wfRel_congr hids hcomp

/-- Composing the two stages: rows outside the processed set are
untouched, processed rows end with both back-pointers set. -/
theorem forall2_sess_wf {A B : List Nat} (hAB : ∀ x, x ∈ A ↔ x ∈ B)
    {l m n : List RawEvent}
    (h1 : List.Forall₂ (sessRel A) l m) (h2 : List.Forall₂ (wfRel B) m n) :
    List.Forall₂ (fun r r2 => (r.id ∉ A → r2 = r) ∧ r2.id = r.id
      ∧ (r.id ∈ A → r2.sessionId ≠ none ∧ r2.workflowRunId ≠ none)) l n := by
  induction h1 generalizing n with
  | nil =>
    cases h2
    exact List.Forall₂.nil
  | cons hr hrest ih =>
    cases h2 with
    | cons hr2 hrest2 =>
      refine List.Forall₂.cons ⟨?_, ?_, ?_⟩ (ih hrest2)
      · intro hn
        rw [hr2.1 (by rw [sessRel_id hr]; exact fun hB => hn ((hAB _).mpr hB)),
          hr.1 hn]
      · rw [wfRel_id hr2, sessRel_id hr]
      · intro hm
        obtain ⟨sid, hb⟩ := hr.2 hm
        obtain ⟨w, hc⟩ := hr2.2 (by rw [sessRel_id hr]; exact (hAB _).mp hm)
        subst hb
        subst hc
        exact ⟨by simp, by simp⟩

/-- The claim's invariants, plus the workflow-side strengthening needed
to carry them through an inference run. -/
def storeInv (st : Store) : Prop :=
  (∀ e ∈ st.events, (e.sessionId = none ↔ e.workflowRunId = none))
    ∧ (∀ e ∈ st.events, e.sessionId ≠ none → e.id ≤ st.cursorLastEventId)
    ∧ (st.cursorLastEventId = 0
        ∨ ∃ e ∈ st.events, e.sessionId ≠ none ∧ e.id = st.cursorLastEventId)
    ∧ WfInv st

theorem wfInv_transfer {s t : Store} (hw : t.workflows = s.workflows)
    (hs : t.steps = s.steps) (hn : t.nextWorkflowId = s.nextWorkflowId)
    (h : WfInv s) : WfInv t := by
  rw [WfInv, hw, hs, hn]
  exact h

theorem storeInv_emptyStore : storeInv emptyStore := by
  refine ⟨?_, ?_, Or.inl rfl, ?_, ?_, ?_⟩
  · intro e he
    exact absurd he (List.not_mem_nil e)
  · intro e he
    exact absurd he (List.not_mem_nil e)
  · intro w hw
    exact absurd hw (List.not_mem_nil w)
  · intro s hs
    exact absurd hs (List.not_mem_nil s)
  · intro w hw
    exact absurd hw (List.not_mem_nil w)

theorem storeInv_appendEvent (st : Store) (d : NewEventData) (h : storeInv st) :
    storeInv (appendEvent st d) := by
  obtain ⟨h1, h2, h3, hW⟩ := h
  refine ⟨?_, ?_, ?_, ?_⟩
  · intro e he
    rcases List.mem_append.mp he with he | he
    · exact h1 e he
    · rw [List.mem_singleton.mp he]
  · intro e he hs
    rcases List.mem_append.mp he with he | he
    · exact h2 e he hs
    · rw [List.mem_singleton.mp he] at hs
      exact absurd rfl hs
  · rcases h3 with h3 | ⟨e, he, hs, hid⟩
    · exact Or.inl h3
    · exact Or.inr ⟨e, List.mem_append_left _ he, hs, hid⟩
  · exact hW

theorem storeInv_ingestEvents (ds : List NewEventData) :
    ∀ st : Store, storeInv st → storeInv (ingestEvents st ds) := by
  induction ds with
  | nil => exact fun st h => h
  | cons d ds ih =>
    intro st h
    exact ih (appendEvent st d) (storeInv_appendEvent st d h)

theorem storeInv_run_inference (T : Int) (st : Store) (h : storeInv st) :
    storeInv (run_inference T st) := by
  obtain ⟨h1, h2, h3, hW⟩ := h
  have hrun : run_inference T st
      = (if ((sortByKey (fun e => (e.id : Int))
              (st.events.filter (fun e =>
                decide (st.cursorLastEventId < e.id) && e.sessionId = none))).take
                10000).isEmpty
          then st
          else
            { infer_workflows T
                (sessionize_events T st
                  ((sortByKey (fun e => (e.id : Int))
                    (st.events.filter (fun e =>
                      decide (st.cursorLastEventId < e.id) && e.sessionId = none))).take
                        10000)).1
                (sessionize_events T st
                  ((sortByKey (fun e => (e.id : Int))
                    (st.events.filter (fun e =>
                      decide (st.cursorLastEventId < e.id) && e.sessionId = none))).take
                        10000)).2 with
              cursorLastEventId :=
                ((((sortByKey (fun e => (e.id : Int))
                    (st.events.filter (fun e =>
                      decide (st.cursorLastEventId < e.id) && e.sessionId = none))).take
                        10000).map (fun e => e.id)).foldl Nat.max 0) }) := rfl
  set B := ((sortByKey (fun e => (e.id : Int))
      (st.events.filter (fun e =>
        decide (st.cursorLastEventId < e.id) && e.sessionId = none))).take 10000) with hBdef
  by_cases hE : B.isEmpty
  · rw [hrun, if_pos hE]
    exact ⟨h1, h2, h3, hW⟩
  · rw [hrun, if_neg hE]
    have hBne : B ≠ [] := fun hnil => hE (by rw [hnil]; rfl)
    have hBsub : ∀ b ∈ B, b ∈ st.events ∧ st.cursorLastEventId < b.id
        ∧ b.sessionId = none := by
      intro b hb
      have hb1 : b ∈ sortByKey (fun e => (e.id : Int))
          (st.events.filter (fun e =>
            decide (st.cursorLastEventId < e.id) && e.sessionId = none)) :=
        List.take_subset 10000 _ hb
      rw [mem_sortByKey] at hb1
      have hmf := List.mem_filter.mp hb1
      have hp := hmf.2
      simp only [Bool.and_eq_true, decide_eq_true_eq] at hp
      exact ⟨hmf.1, hp.1, hp.2⟩
    obtain ⟨A, hF1, hw1, hs1, hnw1, hne1, hcu1, hacc1, hA⟩ :=
      sessionize_events_effects T st B
    obtain ⟨hF2, hInv2⟩ :=
      infer_workflows_effects T (sessionize_events T st B).2
        (sessionize_events T st B).1 (wfInv_transfer hw1 hs1 hnw1 hW)
    have hAB : ∀ x, x ∈ A ↔ x ∈ flatAccIds (sessionize_events T st B).2 :=
      fun x => (hacc1 x).symm
    have hC := forall2_sess_wf hAB hF1 hF2
    obtain ⟨b0, hb0⟩ := List.exists_mem_of_ne_nil B hBne
    have hb0p := hBsub b0 hb0
    have hb0le : b0.id ≤ (B.map (fun e => e.id)).foldl Nat.max 0 :=
      foldl_max_le _ 0 b0.id (List.mem_map.mpr ⟨b0, hb0, rfl⟩)
    have hMlt : st.cursorLastEventId < (B.map (fun e => e.id)).foldl Nat.max 0 :=
      Nat.lt_of_lt_of_le hb0p.2.1 hb0le
    have hMmem : (B.map (fun e => e.id)).foldl Nat.max 0 ∈ B.map (fun e => e.id) := by
      rcases foldl_max_mem_or (B.map (fun e => e.id)) 0 with hm | hm
      · exact hm
      · exfalso
        omega
    refine ⟨?_, ?_, ?_, ?_⟩
    · intro e2 he2
      obtain ⟨r, hr, hrel⟩ := forall2_mem_right hC e2 he2
      by_cases hm : r.id ∈ A
      · obtain ⟨hsome1, hsome2⟩ := hrel.2.2 hm
        constructor
        · intro hcontra
          exact absurd hcontra hsome1
        · intro hcontra
          exact absurd hcontra hsome2
      · rw [hrel.1 hm]
        exact h1 r hr
    · intro e2 he2 hsome
      obtain ⟨r, hr, hrel⟩ := forall2_mem_right hC e2 he2
      by_cases hm : r.id ∈ A
      · have : r.id ∈ B.map (fun e => e.id) := (hA r.id).mp hm
        have hle := foldl_max_le (B.map (fun e => e.id)) 0 r.id this
        rw [hrel.2.1]
        exact hle
      · rw [hrel.1 hm] at hsome ⊢
        exact le_trans (h2 r hr hsome) (Nat.le_of_lt hMlt)
    · right
      obtain ⟨b, hbB, hbid⟩ := List.mem_map.mp hMmem
      obtain ⟨e2, he2, hrel⟩ := forall2_mem_left hC b (hBsub b hbB).1
      have hbA : b.id ∈ A := (hA b.id).mpr (List.mem_map.mpr ⟨b, hbB, rfl⟩)
      exact ⟨e2, he2, (hrel.2.2 hbA).1, by rw [hrel.2.1, hbid]⟩
    · exact hInv2

theorem storeInv_reachable (st : Store) (h : ReachableStore st) : storeInv st := by
  induction h with
  | init => exact storeInv_emptyStore
  | ingest st ds _ ih => exact storeInv_ingestEvents ds st ih
  | infer T st _ ih => exact storeInv_run_inference T st ih

/-- C4: in every store reachable from the empty database by committed
ingest batches and inference runs, (a) a raw event has `session_id` NULL
iff it has `workflow_run_id` NULL, (b) each workflow's steps carry
`step_order` exactly `0..n-1` in order, and (c) the cursor's
`last_event_id` is the maximum id over all processed (= session-assigned)
events: an upper bound on their ids that is attained by one of them, and
`0` before anything is processed. -/
theorem c4_inference_invariants (st : Store) (h : ReachableStore st) :
    (∀ e ∈ st.events, (e.sessionId = none ↔ e.workflowRunId = none))
      ∧ (∀ w ∈ st.workflows,
          (st.steps.filter (fun s => s.workflowRunId = w.id)).map (fun s => s.stepOrder)
            = List.range ((st.steps.filter (fun s => s.workflowRunId = w.id)).length))
      ∧ ((∀ e ∈ st.events, e.sessionId ≠ none → e.id ≤ st.cursorLastEventId)
          ∧ (st.cursorLastEventId = 0
              ∨ ∃ e ∈ st.events, e.sessionId ≠ none ∧ e.id = st.cursorLastEventId)) := by
  obtain ⟨h1, h2, h3, _, _, h4⟩ := storeInv_reachable st h
  exact ⟨h1, h4, h2, h3⟩

/-- Two ingested events of one actor: a two-command workflow. -/
def c4Batch : List NewEventData :=
  [{ timestamp := 0, toolName := "git", commandPath := ["git", "init"],
     flagsPresent := [], exitCode := some 0, durationMs := none,
     actorIdHash := "a", machineIdHash := "m", sessionHint := none,
     ciDetected := false },
   { timestamp := 1, toolName := "git", commandPath := ["git", "commit"],
     flagsPresent := [], exitCode := some 0, durationMs := none,
     actorIdHash := "a", machineIdHash := "m", sessionHint := none,
     ciDetected := false }]

/-- A concrete reachable store: ingest two events, run inference once. -/
def c4Store : Store :=
  run_inference 30 (ingestEvents emptyStore c4Batch)

theorem c4_inference_invariants_witness :
    ReachableStore c4Store
      ∧ ((∀ e ∈ c4Store.events, (e.sessionId = none ↔ e.workflowRunId = none))
          ∧ (∀ w ∈ c4Store.workflows,
              (c4Store.steps.filter (fun s => s.workflowRunId = w.id)).map
                  (fun s => s.stepOrder)
                = List.range
                    ((c4Store.steps.filter (fun s => s.workflowRunId = w.id)).length))
          ∧ ((∀ e ∈ c4Store.events, e.sessionId ≠ none → e.id ≤ c4Store.cursorLastEventId)
              ∧ (c4Store.cursorLastEventId = 0
                  ∨ ∃ e ∈ c4Store.events,
                      e.sessionId ≠ none ∧ e.id = c4Store.cursorLastEventId))) :=
  have hreach : ReachableStore c4Store :=
    ReachableStore.infer 30 (ingestEvents emptyStore c4Batch)
      (ReachableStore.ingest emptyStore c4Batch ReachableStore.init)
  ⟨hreach, c4_inference_invariants c4Store hreach⟩
